import Mathlib

/-!
Verification of `scripts/average.py` from the checkers-redux repository.

The script reads "dotted.key.path = value" lines, rebuilds a nested record
(Python dicts of strings), walks the `game` sub-mapping accumulating
per-player statistics, averages them over the number of games, and prints a
report.  Below, Python strings are modelled as `List Char`, dicts as
insertion-ordered association lists, exceptions as an `Err` sum carried in
`Except`, and Python float division as exact division in `ℚ`.
-/

namespace Checkers

/-- Python strings (dict keys and leaf values) are modelled as lists of
characters. -/
abbrev Key := List Char

/-- A dotted key path, already split on `"."`. -/
abbrev Path := List Key

/-- A node of the nested record built by the script: either a Python string
or a Python dict (association list in insertion order). -/
inductive Value where
  | str : Key → Value
  | map : List (Key × Value) → Value

/-- The dict payload of a `Value.map` node. -/
abbrev Dict := List (Key × Value)

/-- The Python exceptions the script can raise. -/
inductive Err where
  /-- `raise NotImplementedError` in `add_value` for an empty key list. -/
  | internalError
  /-- `ValueError`: unpacking a split with a number of parts other than two,
  or `int()` applied to a non-numeric string. -/
  | valueError
  /-- `TypeError`: indexing a `str` with a string key, item assignment on a
  `str`, or `int()` applied to a dict. -/
  | typeError
  /-- `AttributeError`: calling `.keys()` on a `str`. -/
  | attributeError
  /-- `KeyError`: looking up a missing dict key. -/
  | keyError
  /-- `ZeroDivisionError`: dividing by `total_games == 0`. -/
  | zeroDivision
deriving DecidableEq

/-- First-match lookup in a dict, as Python `d[k]` / `k in d.keys()`. -/
def lookupA : Dict → Key → Option Value
  | [], _ => none
  | (k', v) :: rest, k => if k' = k then some v else lookupA rest k

/-- Python `d[k] = v`: replace in place if the key is present (keeping its
insertion position), otherwise append at the end. -/
def updateA : Dict → Key → Value → Dict
  | [], k, v => [(k, v)]
  | (k', v') :: rest, k, v =>
    if k' = k then (k', v) :: rest else (k', v') :: updateA rest k v

/-- `add_value(d, keys, value)` from the script: descend/build nested dicts
along `keys`, assigning the string `value` at the final segment.  The error
cases mirror the Python exceptions: `NotImplementedError` on an empty key
list, `TypeError` for item assignment on a string, `AttributeError` for
`.keys()` on a string met while descending. -/
def add_value (d : Value) (keys : List Key) (value : Key) : Except Err Value :=
  match keys with
  | [] => .error .internalError
  | k :: rest =>
    match rest with
    | [] =>
      match d with
      | .str _ => .error .typeError
      | .map m => .ok (.map (updateA m k (.str value)))
    | _ :: _ =>
      match d with
      | .str _ => .error .attributeError
      | .map m =>
        let sub := match lookupA m k with
          | none => Value.map []
          | some v => v
        match add_value sub rest value with
        | .error e => .error e
        | .ok sub' => .ok (.map (updateA m k sub'))

/-- Observation of a nested record at a key path: `none` if the path leads
nowhere, `some none` if it reaches a dict node, `some (some s)` if it reaches
the string leaf `s`.  Two records with equal observations everywhere are
identical as mappings. -/
def observeV : Value → Path → Option (Option Key)
  | .str s, [] => some (some s)
  | .map _, [] => some none
  | .str _, _ :: _ => none
  | .map m, k :: t =>
    match lookupA m k with
    | none => none
    | some w => observeV w t

/-- Python `key.split(".")`. -/
def splitDot : List Char → List (List Char)
  | [] => [[]]
  | c :: rest =>
    if c = '.' then [] :: splitDot rest
    else
      match splitDot rest with
      | [] => [[c]]
      | x :: xs => (c :: x) :: xs

/-- The separator `" = "` of the line format. -/
def sepL : List Char := [' ', '=', ' ']

/-- Prepend a character to the first chunk of a split result. -/
def pushChar (c : Char) (l : List (List Char)) : List (List Char) :=
  match l with
  | [] => [[c]]
  | x :: xs => (c :: x) :: xs

/-- Python `line.split(" = ")`: split on every non-overlapping occurrence of
the three-character separator, scanning left to right. -/
def splitEq : List Char → List (List Char)
  | [] => [[]]
  | [c] => [[c]]
  | [c, c2] => [[c, c2]]
  | c :: c2 :: c3 :: rest =>
    if c = ' ' ∧ c2 = '=' ∧ c3 = ' ' then [] :: splitEq rest
    else pushChar c (splitEq (c2 :: c3 :: rest))

/-- The characters removed by Python `str.strip()` (ASCII whitespace). -/
def isPySpace (c : Char) : Bool :=
  c = ' ' || c = '\t' || c = '\n' || c = '\r' || c = Char.ofNat 11 || c = Char.ofNat 12

/-- Python `line.strip()`. -/
def pyStrip (l : List Char) : List Char :=
  ((l.dropWhile isPySpace).reverse.dropWhile isPySpace).reverse

/-- Decimal digit test. -/
def isDigitC (c : Char) : Bool := '0' ≤ c && c ≤ '9'

/-- Numeric value of a decimal digit character. -/
def digitVal (c : Char) : Nat := c.toNat - 48

/-- Digits of an integer literal after the first one: Python `int()` accepts
single underscores between digits. -/
def digitsAux : Nat → List Char → Option Nat
  | acc, [] => some acc
  | acc, '_' :: c :: rest =>
    if isDigitC c then digitsAux (acc * 10 + digitVal c) rest else none
  | acc, c :: rest =>
    if isDigitC c then digitsAux (acc * 10 + digitVal c) rest else none

/-- A nonempty run of decimal digits with optional single underscores
between them. -/
def parseDigits : List Char → Option Nat
  | [] => none
  | c :: rest => if isDigitC c then digitsAux (digitVal c) rest else none

/-- Python `int(s)` on a string: surrounding whitespace stripped, optional
sign, then decimal digits. -/
def pyInt (s : List Char) : Option Int :=
  match pyStrip s with
  | '+' :: rest => (parseDigits rest).map (fun n => (n : Int))
  | '-' :: rest => (parseDigits rest).map (fun n => -(n : Int))
  | l => (parseDigits l).map (fun n => (n : Int))

/-- One input line: `line.strip().split(" = ")`, unpacked into the key path
and the value.  A number of parts other than two raises `ValueError` in
Python ("too many/not enough values to unpack"). -/
def parseLine (line : List Char) : Except Err (Path × Key) :=
  match splitEq (pyStrip line) with
  | [k, v] => .ok (splitDot k, v)
  | _ => .error .valueError

/-- Building the record from already-split (path, value) pairs, left to
right, aborting on the first exception. -/
def buildFrom (d : Value) : List (Path × Key) → Except Err Value
  | [] => .ok d
  | pv :: rest =>
    match add_value d pv.1 pv.2 with
    | .error e => .error e
    | .ok d' => buildFrom d' rest

/-- Building the record from already-split (path, value) pairs, starting
from the empty root dict `data = {}`. -/
def buildRecord (ps : List (Path × Key)) : Except Err Value :=
  buildFrom (Value.map []) ps

/-- One iteration of the input loop: parse the line, then `add_value`. -/
def processLine (d : Value) (line : List Char) : Except Err Value := do
  let pv ← parseLine line
  add_value d pv.1 pv.2

/-- The input loop `for line in fileinput.input(): ...` from a given
record. -/
def parseFrom (d : Value) : List (List Char) → Except Err Value
  | [] => .ok d
  | line :: rest =>
    match processLine d line with
    | .error e => .error e
    | .ok d' => parseFrom d' rest

/-- The whole input loop, starting from `data = {}`. -/
def parseLines (lines : List (List Char)) : Except Err Value :=
  parseFrom (Value.map []) lines

/-- The per-player accumulator from the `stats` dict: three outcome counters
and six integer sums. -/
structure PStats where
  wins : Int
  draws : Int
  losses : Int
  moves : Int
  explored : Int
  beta_cuts : Int
  tt_exact : Int
  tt_cuts : Int
  max_depth : Int
deriving DecidableEq

/-- The zero-initialised accumulator. -/
def zeroP : PStats := ⟨0, 0, 0, 0, 0, 0, 0, 0, 0⟩

/-- The mutable state of the game walker: `total_games` and both players'
accumulators. -/
structure WalkState where
  total_games : Int
  player1 : PStats
  player2 : PStats
deriving DecidableEq

/-- The initial walker state. -/
def zeroW : WalkState := ⟨0, zeroP, zeroP⟩

def winnerK : Key := "winner".toList
def drawK : Key := "draw".toList
def p1K : Key := "player1".toList
def p2K : Key := "player2".toList
def movesK : Key := "moves".toList
def exploredK : Key := "explored".toList
def betaK : Key := "beta_cuts".toList
def ttExactK : Key := "tt_exact".toList
def ttCutsK : Key := "tt_cuts".toList
def maxDepthK : Key := "max_depth".toList
def gameK : Key := "game".toList
def configK : Key := "config".toList
def gamesK : Key := "games".toList

/-- Python `v[k]` for a record node: `TypeError` when `v` is a string,
`KeyError` when the key is absent. -/
def getKey (v : Value) (k : Key) : Except Err Value :=
  match v with
  | .str _ => .error .typeError
  | .map m =>
    match lookupA m k with
    | none => .error .keyError
    | some w => .ok w

/-- Python `int(v)` on a record node: `TypeError` on a dict, `ValueError` on
a non-numeric string. -/
def toInt (v : Value) : Except Err Int :=
  match v with
  | .map _ => .error .typeError
  | .str s =>
    match pyInt s with
    | none => .error .valueError
    | some n => .ok n

/-- `int(game[player][field])`. -/
def readStat (game : Value) (player field : Key) : Except Err Int := do
  let pv ← getKey game player
  let fv ← getKey pv field
  toInt fv

/-- `update_player_stats(stats, game, player)` from the script: add the six
parsed counters of `game[player]` to the accumulator. -/
def update_player_stats (s : PStats) (game : Value) (player : Key) :
    Except Err PStats := do
  let m ← readStat game player movesK
  let ex ← readStat game player exploredK
  let bc ← readStat game player betaK
  let te ← readStat game player ttExactK
  let tc ← readStat game player ttCutsK
  let md ← readStat game player maxDepthK
  .ok { s with
    moves := s.moves + m, explored := s.explored + ex,
    beta_cuts := s.beta_cuts + bc, tt_exact := s.tt_exact + te,
    tt_cuts := s.tt_cuts + tc, max_depth := s.max_depth + md }

/-- Python `game["winner"] == lit`: a dict compares unequal to any string. -/
def winnerIs (w : Value) (lit : Key) : Bool :=
  match w with
  | .str s => s = lit
  | .map _ => false

/-- The `if/elif/elif` chain on `game["winner"]`: it has no `else`, so an
unrecognised winner updates no outcome counter. -/
def outcomeUpd (w : Value) (st : WalkState) : WalkState :=
  if winnerIs w drawK then
    { st with
      player1 := { st.player1 with draws := st.player1.draws + 1 },
      player2 := { st.player2 with draws := st.player2.draws + 1 } }
  else if winnerIs w p1K then
    { st with
      player1 := { st.player1 with wins := st.player1.wins + 1 },
      player2 := { st.player2 with losses := st.player2.losses + 1 } }
  else if winnerIs w p2K then
    { st with
      player2 := { st.player2 with wins := st.player2.wins + 1 },
      player1 := { st.player1 with losses := st.player1.losses + 1 } }
  else st

/-- One iteration of the game loop: bump `total_games`, classify the winner,
then accumulate both players' counters. -/
def stepGame (st : WalkState) (e : Key × Value) : Except Err WalkState := do
  let w ← getKey e.2 winnerK
  let s1 ← update_player_stats (outcomeUpd w st).player1 e.2 p1K
  let s2 ← update_player_stats (outcomeUpd w st).player2 e.2 p2K
  .ok { total_games := st.total_games + 1, player1 := s1, player2 := s2 }

/-- `for gid in data["game"].keys(): ...` over a given entry list. -/
def walkGames (st : WalkState) : List (Key × Value) → Except Err WalkState
  | [] => .ok st
  | e :: rest =>
    match stepGame st e with
    | .error err => .error err
    | .ok st' => walkGames st' rest

/-- The game walk on the whole record: look up `data["game"]` (`KeyError` if
absent), iterate its entries (`.keys()` on a string is an
`AttributeError`). -/
def walkRecord (d : Value) : Except Err WalkState := do
  let g ← getKey d gameK
  match g with
  | .str _ => .error .attributeError
  | .map gs => walkGames zeroW gs

/-- The statistics after averaging: outcome counters stay integers, the six
sums become exact quotients (Python float division modelled in `ℚ`). -/
structure AvgStats where
  wins : Int
  draws : Int
  losses : Int
  moves : ℚ
  explored : ℚ
  beta_cuts : ℚ
  tt_exact : ℚ
  tt_cuts : ℚ
  max_depth : ℚ
deriving DecidableEq

/-- `average_player_stats(stats, total_games, player)` from the script:
replace each of the six sums by `sum / total_games` (`ZeroDivisionError`
when `total_games == 0`), leaving `wins`, `draws`, `losses` untouched. -/
def average_player_stats (s : PStats) (total_games : Int) :
    Except Err AvgStats :=
  if total_games = 0 then .error .zeroDivision
  else .ok
    { wins := s.wins, draws := s.draws, losses := s.losses,
      moves := (s.moves : ℚ) / (total_games : ℚ),
      explored := (s.explored : ℚ) / (total_games : ℚ),
      beta_cuts := (s.beta_cuts : ℚ) / (total_games : ℚ),
      tt_exact := (s.tt_exact : ℚ) / (total_games : ℚ),
      tt_cuts := (s.tt_cuts : ℚ) / (total_games : ℚ),
      max_depth := (s.max_depth : ℚ) / (total_games : ℚ) }

/-- `print_config_player`: `config[player].keys()` fails with
`AttributeError` when `config[player]` is a string. -/
def configPlayer (cfg : Value) (player : Key) : Except Err Dict := do
  let pv ← getKey cfg player
  match pv with
  | .str _ => .error .attributeError
  | .map m => .ok m

/-- `print_config(data["config"])`: read `config["games"]` and both players'
configuration sub-maps, in the order the script prints them. -/
def configEcho (d : Value) : Except Err (Value × Dict × Dict) := do
  let cfg ← getKey d configK
  let g ← getKey cfg gamesK
  let c1 ← configPlayer cfg p1K
  let c2 ← configPlayer cfg p2K
  .ok (g, c1, c2)

/-- Everything the report renders. -/
structure Report where
  games : Value
  config1 : Dict
  config2 : Dict
  stats1 : AvgStats
  stats2 : AvgStats

/-- The whole script: parse stdin, walk the games, average both players,
then gather what the report prints, aborting on the first exception. -/
def run (lines : List (List Char)) : Except Err Report := do
  let d ← parseLines lines
  let w ← walkRecord d
  let a1 ← average_player_stats w.player1 w.total_games
  let a2 ← average_player_stats w.player2 w.total_games
  let c ← configEcho d
  .ok ⟨c.1, c.2.1, c.2.2, a1, a2⟩

/-- Boolean prefix test on lists. -/
def isPre {α : Type} [DecidableEq α] : List α → List α → Bool
  | [], _ => true
  | _ :: _, [] => false
  | a :: p, b :: q => if a = b then isPre p q else false

/-- Boolean strict (proper) prefix test on lists. -/
def isSPre {α : Type} [DecidableEq α] : List α → List α → Bool
  | [], [] => false
  | [], _ :: _ => true
  | _ :: _, [] => false
  | a :: p, b :: q => if a = b then isSPre p q else false

/-- Whether an observation is a string leaf. -/
def isLeafO : Option (Option Key) → Bool
  | some (some _) => true
  | _ => false

/-- The value carried by the last pair of `ps` whose path is `p`, if any. -/
def lastVal : List (Path × Key) → Path → Option Key
  | [], _ => none
  | (q, v) :: rest, p =>
    match lastVal rest p with
    | some w => some w
    | none => if q = p then some v else none

/-- The paths assigned by a pair list. -/
def pathsOf (ps : List (Path × Key)) : List Path := ps.map Prod.fst

/-- The intended observation function of the record built from `ps` (when
no assigned path is a strict prefix of another): the root is a dict, an
assigned path holds its last value, a strict prefix of an assigned path is
a dict node, anything else is absent. -/
def charObs (ps : List (Path × Key)) (q : Path) : Option (Option Key) :=
  if q = [] then some none
  else
    match lastVal ps q with
    | some v => some (some v)
    | none => if ps.any (fun r => isSPre q r.1) then some none else none

/-- Structural well-formedness of a record node: every dict in it has
pairwise distinct keys (true of every Python dict). -/
inductive WFV : Value → Prop where
  | str : ∀ s, WFV (.str s)
  | map : ∀ m, (m.map Prod.fst).Nodup → (∀ kv ∈ m, WFV kv.2) → WFV (.map m)

/-- Extensional equality of records: equal observations at every path,
i.e. identical as (nested) mappings. -/
def extEq (v v' : Value) : Prop := ∀ q, observeV v q = observeV v' q

/-- Whether a list of characters contains an occurrence of `" = "`. -/
def hasSep : List Char → Bool
  | [] => false
  | c :: rest => isPre sepL (c :: rest) || hasSep rest

/-- Whether no occurrence of `" = "` starts at one of the first `n`
positions of the list. -/
def noSepWithin : Nat → List Char → Bool
  | 0, _ => true
  | _ + 1, [] => true
  | n + 1, c :: rest => !isPre sepL (c :: rest) && noSepWithin n rest

/-- The parsed (path, value) pair of a line, defaulting to a dummy for
lines that do not parse (used only under the hypothesis that they do). -/
def parsedPair (line : List Char) : Path × Key :=
  match parseLine line with
  | .ok pv => pv
  | .error _ => ([], [])

/-- The walker delta of one game entry, defaulting to the zero state when
the entry raises (used only under the hypothesis that it does not). -/
def okDelta (e : Key × Value) : WalkState :=
  match stepGame zeroW e with
  | .ok st => st
  | .error _ => zeroW

/-- Pointwise sum of accumulators. -/
def addP (a b : PStats) : PStats :=
  ⟨a.wins + b.wins, a.draws + b.draws, a.losses + b.losses,
   a.moves + b.moves, a.explored + b.explored, a.beta_cuts + b.beta_cuts,
   a.tt_exact + b.tt_exact, a.tt_cuts + b.tt_cuts, a.max_depth + b.max_depth⟩

/-- Pointwise sum of walker states. -/
def addW (a b : WalkState) : WalkState :=
  ⟨a.total_games + b.total_games, addP a.player1 b.player1,
   addP a.player2 b.player2⟩

/-- Whether a game entry's winner field is the given literal. -/
def winnerOf (e : Key × Value) (lit : Key) : Bool :=
  match getKey e.2 winnerK with
  | .ok w => winnerIs w lit
  | .error _ => false

/-- Whether a game entry's winner field is one of the three recognised
literals. -/
def winnerKnown (e : Key × Value) : Bool :=
  winnerOf e drawK || winnerOf e p1K || winnerOf e p2K

/-- The number of entries of `l` whose winner field is the literal. -/
def countWinner (l : List (Key × Value)) (lit : Key) : Int :=
  ((l.filter (fun e => winnerOf e lit)).length : Int)

/-- The number of entries of `l` with a recognised winner. -/
def countKnown (l : List (Key × Value)) : Int :=
  ((l.filter winnerKnown).length : Int)

/-- A sample per-player stats block used to exercise the walker on concrete
games. -/
def sampleStats : Dict :=
  [(movesK, .str "10".toList), (exploredK, .str "100".toList),
   (betaK, .str "4".toList), (ttExactK, .str "2".toList),
   (ttCutsK, .str "1".toList), (maxDepthK, .str "5".toList)]

/-- A sample game entry with the given winner string. -/
def sampleGame (w : List Char) : Value :=
  .map [(winnerK, .str w), (p1K, .map sampleStats), (p2K, .map sampleStats)]

/-- The walker state after one sample game that ends in a draw. -/
def sampleDrawState : WalkState :=
  ⟨1, ⟨0, 1, 0, 10, 100, 4, 2, 1, 5⟩, ⟨0, 1, 0, 10, 100, 4, 2, 1, 5⟩⟩

/-- The walker state after one sample game with the unrecognised winner
string `"foo"`: counted and accumulated, but no outcome counter is set. -/
def fooState : WalkState :=
  ⟨1, ⟨0, 0, 0, 10, 100, 4, 2, 1, 5⟩, ⟨0, 0, 0, 10, 100, 4, 2, 1, 5⟩⟩

/-! ### Association list lemmas -/

@[simp] theorem lookupA_nil (k : Key) : lookupA [] k = none := rfl

@[simp] theorem lookupA_cons (k' : Key) (v : Value) (rest : Dict) (k : Key) :
    lookupA ((k', v) :: rest) k = if k' = k then some v else lookupA rest k := rfl

theorem updateA_nil (k : Key) (v : Value) : updateA [] k v = [(k, v)] := rfl

theorem updateA_cons (k' : Key) (v' : Value) (rest : Dict) (k : Key) (v : Value) :
    updateA ((k', v') :: rest) k v =
      if k' = k then (k', v) :: rest else (k', v') :: updateA rest k v := rfl

@[simp] theorem lookup_updateA_self (m : Dict) (k : Key) (v : Value) :
    lookupA (updateA m k v) k = some v := by
  induction m with
  | nil => simp [updateA]
  | cons kv rest ih =>
    obtain ⟨k', v'⟩ := kv
    by_cases h : k' = k
    · simp [updateA, h]
    · simp [updateA, h, ih]

theorem lookup_updateA_ne (m : Dict) (k k₀ : Key) (v : Value) (h : k₀ ≠ k) :
    lookupA (updateA m k v) k₀ = lookupA m k₀ := by
  have h' : k ≠ k₀ := Ne.symm h
  induction m with
  | nil => simp [updateA, h']
  | cons kv rest ih =>
    obtain ⟨k', v'⟩ := kv
    by_cases hk : k' = k
    · subst hk
      simp [updateA, h']
    · simp only [updateA, if_neg hk, lookupA_cons]
      by_cases hk0 : k' = k₀ <;> simp [hk0, ih]

theorem updateA_fst (m : Dict) (k : Key) (v : Value) :
    (updateA m k v).map Prod.fst =
      if k ∈ m.map Prod.fst then m.map Prod.fst else m.map Prod.fst ++ [k] := by
  induction m with
  | nil => simp [updateA]
  | cons kv rest ih =>
    obtain ⟨k', v'⟩ := kv
    by_cases h : k' = k
    · subst h
      rw [updateA_cons, if_pos rfl]
      simp only [List.map_cons]
      rw [if_pos (List.mem_cons_self _ _)]
    · have h' : k ≠ k' := Ne.symm h
      rw [updateA_cons, if_neg h]
      simp only [List.map_cons, ih]
      by_cases hm : k ∈ rest.map Prod.fst <;> simp [hm, h']

theorem nodup_updateA (m : Dict) (k : Key) (v : Value)
    (h : (m.map Prod.fst).Nodup) : ((updateA m k v).map Prod.fst).Nodup := by
  rw [updateA_fst]
  by_cases hm : k ∈ m.map Prod.fst
  · rw [if_pos hm]; exact h
  · rw [if_neg hm]
    simp [List.nodup_append, h, hm]

theorem mem_updateA {m : Dict} {k : Key} {v : Value} {kv : Key × Value}
    (h : kv ∈ updateA m k v) : kv = (k, v) ∨ kv ∈ m := by
  induction m with
  | nil => simpa [updateA] using h
  | cons kv' rest ih =>
    obtain ⟨k', v'⟩ := kv'
    by_cases hk : k' = k
    · subst hk
      rw [updateA_cons, if_pos rfl] at h
      rcases List.mem_cons.mp h with h1 | h1
      · exact .inl h1
      · exact .inr (List.mem_cons_of_mem _ h1)
    · rw [updateA_cons, if_neg hk] at h
      rcases List.mem_cons.mp h with h1 | h1
      · exact .inr (by simp [h1])
      · rcases ih h1 with h' | h'
        · exact .inl h'
        · exact .inr (List.mem_cons_of_mem _ h')

theorem lookupA_mem {m : Dict} {k : Key} {v : Value}
    (h : lookupA m k = some v) : (k, v) ∈ m := by
  induction m with
  | nil => simp at h
  | cons kv rest ih =>
    obtain ⟨k', v'⟩ := kv
    by_cases hk : k' = k
    · subst hk
      rw [lookupA_cons, if_pos rfl] at h
      obtain rfl : v' = v := by injection h
      exact List.mem_cons_self _ _
    · rw [lookupA_cons, if_neg hk] at h
      exact List.mem_cons_of_mem _ (ih h)

/-! ### Observation lemmas -/

@[simp] theorem observeV_str_nil (s : Key) : observeV (.str s) [] = some (some s) := rfl

@[simp] theorem observeV_map_nil (m : Dict) : observeV (.map m) [] = some none := rfl

@[simp] theorem observeV_str_cons (s : Key) (k : Key) (t : Path) :
    observeV (.str s) (k :: t) = none := rfl

theorem observeV_cons_none {m : Dict} {k : Key} (t : Path)
    (h : lookupA m k = none) : observeV (.map m) (k :: t) = none := by
  simp [observeV, h]

theorem observeV_cons_some {m : Dict} {k : Key} {w : Value} (t : Path)
    (h : lookupA m k = some w) : observeV (.map m) (k :: t) = observeV w t := by
  simp [observeV, h]

@[simp] theorem observeV_empty_map (q : Path) (hq : q ≠ []) :
    observeV (.map []) q = none := by
  cases q with
  | nil => exact absurd rfl hq
  | cons k t => exact observeV_cons_none t rfl

/-! ### Strict prefix lemmas -/

@[simp] theorem isSPre_nil_cons {α : Type} [DecidableEq α] (b : α) (q : List α) :
    isSPre [] (b :: q) = true := rfl

@[simp] theorem isSPre_cons_nil {α : Type} [DecidableEq α] (a : α) (p : List α) :
    isSPre (a :: p) [] = false := rfl

theorem isSPre_cons_cons {α : Type} [DecidableEq α] (a b : α) (p q : List α) :
    isSPre (a :: p) (b :: q) = if a = b then isSPre p q else false := rfl

@[simp] theorem isSPre_cons_same {α : Type} [DecidableEq α] (a : α) (p q : List α) :
    isSPre (a :: p) (a :: q) = isSPre p q := by
  simp [isSPre_cons_cons]

theorem isSPre_cons_ne {α : Type} [DecidableEq α] {a b : α} (p q : List α)
    (h : a ≠ b) : isSPre (a :: p) (b :: q) = false := by
  simp [isSPre_cons_cons, h]

@[simp] theorem isSPre_nil_right {α : Type} [DecidableEq α] (p : List α) :
    isSPre p ([] : List α) = false := by
  cases p <;> rfl

@[simp] theorem isSPre_irrefl {α : Type} [DecidableEq α] (p : List α) :
    isSPre p p = false := by
  induction p with
  | nil => rfl
  | cons a p ih => simp [ih]

/-! ### The `add_value` characterisation -/

theorem add_value_nil (d : Value) (v : Key) :
    add_value d [] v = .error .internalError := rfl

theorem add_value_one_str (s : Key) (k v : Key) :
    add_value (.str s) [k] v = .error .typeError := rfl

theorem add_value_one (m : Dict) (k v : Key) :
    add_value (.map m) [k] v = .ok (.map (updateA m k (.str v))) := rfl

theorem add_value_cons_str (s : Key) (k r₁ v : Key) (r' : List Key) :
    add_value (.str s) (k :: r₁ :: r') v = .error .attributeError := rfl

theorem add_value_cons (m : Dict) (k r₁ v : Key) (r' : List Key) :
    add_value (.map m) (k :: r₁ :: r') v =
      match add_value (match lookupA m k with
          | none => Value.map []
          | some w => w) (r₁ :: r') v with
      | .error e => .error e
      | .ok sub' => .ok (.map (updateA m k sub')) := rfl

theorem add_value_char :
    ∀ (p : Path) (d : Value) (v : Key), p ≠ [] →
    (∀ r, isSPre r p = true → isLeafO (observeV d r) = false) →
    ∃ d₂, add_value d p v = .ok d₂ ∧
      ∀ q, observeV d₂ q =
        if q = p then some (some v)
        else if isSPre q p then some none
        else if isSPre p q then none
        else observeV d q := by
  intro p
  induction p with
  | nil => intro d v hne _; exact absurd rfl hne
  | cons k rest ih =>
    intro d v _ hpre
    have hroot : isLeafO (observeV d []) = false := hpre [] (by simp)
    cases d with
    | str s => simp [isLeafO] at hroot
    | map m =>
      cases rest with
      | nil =>
        refine ⟨.map (updateA m k (.str v)), rfl, ?_⟩
        intro q
        cases q with
        | nil => simp
        | cons k₀ t =>
          by_cases hk : k₀ = k
          · subst hk
            rw [observeV_cons_some t (lookup_updateA_self ..)]
            cases t with
            | nil => simp
            | cons t₁ t' => simp
          · have hlk := lookup_updateA_ne m k k₀ (.str v) hk
            have hne : (k₀ :: t) ≠ [k] := by simp [hk]
            cases hl : lookupA m k₀ with
            | none =>
              rw [observeV_cons_none t (hlk.trans hl)]
              simp [hne, isSPre_cons_ne _ _ hk, isSPre_cons_ne _ _ (Ne.symm hk),
                observeV_cons_none t hl]
            | some w =>
              rw [observeV_cons_some t (hlk.trans hl)]
              simp [hne, isSPre_cons_ne _ _ hk, isSPre_cons_ne _ _ (Ne.symm hk),
                observeV_cons_some t hl]
      | cons r₁ r' =>
        -- descend: the sub-node at `k` is not a string leaf
        have hsub : isLeafO (observeV (.map m) [k]) = false := hpre [k] (by simp)
        have hsubpre : ∀ sub, (lookupA m k = some sub ∨ (lookupA m k = none ∧ sub = .map [])) →
            ∀ r, isSPre r (r₁ :: r') = true → isLeafO (observeV sub r) = false := by
          rintro sub (hlk | ⟨hlk, rfl⟩) r hr
          · have := hpre (k :: r) (by simp [hr])
            rwa [observeV_cons_some r hlk] at this
          · cases r with
            | nil => simp [isLeafO]
            | cons a b => simp [observeV_empty_map, isLeafO]
        cases hlk : lookupA m k with
        | none =>
          obtain ⟨sub₂, hadd, hchar⟩ :=
            ih (.map []) v (by simp) (hsubpre _ (.inr ⟨hlk, rfl⟩))
          refine ⟨.map (updateA m k sub₂), ?_, ?_⟩
          · simp only [add_value_cons, hlk, hadd]
          · intro q
            cases q with
            | nil => simp
            | cons k₀ t =>
              by_cases hk : k₀ = k
              · subst hk
                rw [observeV_cons_some t (lookup_updateA_self ..)]
                rw [hchar t]
                by_cases ht : t = r₁ :: r'
                · simp [ht]
                · rw [if_neg ht, if_neg (by simp [ht] : ¬(k₀ :: t) = (k₀ :: r₁ :: r'))]
                  by_cases hsp : isSPre t (r₁ :: r') = true
                  · simp [hsp]
                  · rw [if_neg hsp, if_neg (by simp [hsp] : ¬isSPre (k₀ :: t) (k₀ :: r₁ :: r') = true)]
                    by_cases hsp' : isSPre (r₁ :: r') t = true
                    · simp [hsp']
                    · rw [if_neg hsp', if_neg (by simp [hsp'] : ¬isSPre (k₀ :: r₁ :: r') (k₀ :: t) = true)]
                      have ht' : t ≠ [] := by
                        intro h; subst h; simp at hsp
                      rw [observeV_empty_map t ht', observeV_cons_none t hlk]
              · have hlk' := lookup_updateA_ne m k k₀ sub₂ hk
                have hne : (k₀ :: t) ≠ (k :: r₁ :: r') := by simp [hk]
                rw [if_neg hne, if_neg (by rw [isSPre_cons_ne _ _ hk]; simp),
                  if_neg (by rw [isSPre_cons_ne _ _ (Ne.symm hk)]; simp)]
                cases hl : lookupA m k₀ with
                | none =>
                  rw [observeV_cons_none t (hlk'.trans hl), observeV_cons_none t hl]
                | some w =>
                  rw [observeV_cons_some t (hlk'.trans hl), observeV_cons_some t hl]
        | some sub =>
          obtain ⟨sub₂, hadd, hchar⟩ :=
            ih sub v (by simp) (hsubpre _ (.inl hlk))
          refine ⟨.map (updateA m k sub₂), ?_, ?_⟩
          · simp only [add_value_cons, hlk, hadd]
          · intro q
            cases q with
            | nil => simp
            | cons k₀ t =>
              by_cases hk : k₀ = k
              · subst hk
                rw [observeV_cons_some t (lookup_updateA_self ..)]
                rw [hchar t]
                by_cases ht : t = r₁ :: r'
                · simp [ht]
                · rw [if_neg ht, if_neg (by simp [ht] : ¬(k₀ :: t) = (k₀ :: r₁ :: r'))]
                  by_cases hsp : isSPre t (r₁ :: r') = true
                  · simp [hsp]
                  · rw [if_neg hsp, if_neg (by simp [hsp] : ¬isSPre (k₀ :: t) (k₀ :: r₁ :: r') = true)]
                    by_cases hsp' : isSPre (r₁ :: r') t = true
                    · simp [hsp']
                    · rw [if_neg hsp', if_neg (by simp [hsp'] : ¬isSPre (k₀ :: r₁ :: r') (k₀ :: t) = true)]
                      rw [observeV_cons_some t hlk]
              · have hlk' := lookup_updateA_ne m k k₀ sub₂ hk
                have hne : (k₀ :: t) ≠ (k :: r₁ :: r') := by simp [hk]
                rw [if_neg hne, if_neg (by rw [isSPre_cons_ne _ _ hk]; simp),
                  if_neg (by rw [isSPre_cons_ne _ _ (Ne.symm hk)]; simp)]
                cases hl : lookupA m k₀ with
                | none =>
                  rw [observeV_cons_none t (hlk'.trans hl), observeV_cons_none t hl]
                | some w =>
                  rw [observeV_cons_some t (hlk'.trans hl), observeV_cons_some t hl]

theorem isSPre_length {α : Type} [DecidableEq α] :
    ∀ {p q : List α}, isSPre p q = true → p.length < q.length := by
  intro p
  induction p with
  | nil =>
    intro q h
    cases q with
    | nil => simp at h
    | cons b q' => simp
  | cons a p ih =>
    intro q h
    cases q with
    | nil => simp at h
    | cons b q' =>
      rw [isSPre_cons_cons] at h
      by_cases hab : a = b
      · rw [if_pos hab] at h
        simpa using ih h
      · rw [if_neg hab] at h
        exact absurd h (by simp)

theorem isSPre_trans {α : Type} [DecidableEq α] :
    ∀ {p q r : List α}, isSPre p q = true → isSPre q r = true → isSPre p r = true := by
  intro p
  induction p with
  | nil =>
    intro q r h₁ h₂
    cases r with
    | nil => cases q with
      | nil => simp at h₁
      | cons b q' => simp at h₂
    | cons c r' => simp
  | cons a p ih =>
    intro q r h₁ h₂
    cases q with
    | nil => simp at h₁
    | cons b q' =>
      rw [isSPre_cons_cons] at h₁
      by_cases hab : a = b
      · subst hab
        rw [if_pos rfl] at h₁
        cases r with
        | nil => simp at h₂
        | cons c r' =>
          rw [isSPre_cons_cons] at h₂
          by_cases hac : a = c
          · subst hac
            rw [if_pos rfl] at h₂
            rw [isSPre_cons_same]
            exact ih h₁ h₂
          · rw [if_neg hac] at h₂
            exact absurd h₂ (by simp)
      · rw [if_neg hab] at h₁
        exact absurd h₁ (by simp)

theorem isSPre_asymm {α : Type} [DecidableEq α] {p q : List α}
    (h₁ : isSPre p q = true) (h₂ : isSPre q p = true) : False := by
  have := isSPre_length h₁
  have := isSPre_length h₂
  omega

/-- `add_value` preserves well-formedness of the record. -/
theorem add_value_wf :
    ∀ (p : Path) (d : Value) (v : Key) (d₂ : Value),
    add_value d p v = .ok d₂ → WFV d → WFV d₂ := by
  intro p
  induction p with
  | nil =>
    intro d v d₂ h _
    rw [add_value_nil] at h
    exact absurd h (by simp)
  | cons k rest ih =>
    intro d v d₂ h hwf
    cases rest with
    | nil =>
      cases d with
      | str s => rw [add_value_one_str] at h; exact absurd h (by simp)
      | map m =>
        rw [add_value_one] at h
        obtain rfl : Value.map (updateA m k (.str v)) = d₂ := by injection h
        cases hwf with
        | map _ hnd hmem =>
          refine .map _ (nodup_updateA m k _ hnd) ?_
          intro kv hkv
          rcases mem_updateA hkv with rfl | hkv'
          · exact .str v
          · exact hmem _ hkv'
    | cons r₁ r' =>
      cases d with
      | str s => rw [add_value_cons_str] at h; exact absurd h (by simp)
      | map m =>
        rw [add_value_cons] at h
        cases hrec : add_value (match lookupA m k with
            | none => Value.map []
            | some w => w) (r₁ :: r') v with
        | error e => rw [hrec] at h; exact absurd h (by simp)
        | ok sub₂ =>
          rw [hrec] at h
          obtain rfl : Value.map (updateA m k sub₂) = d₂ := by injection h
          cases hwf with
          | map _ hnd hmem =>
            have hsub₂ : WFV sub₂ := by
              cases hlk : lookupA m k with
              | none =>
                rw [hlk] at hrec
                exact ih _ v sub₂ hrec (.map [] (by simp) (by simp))
              | some w =>
                rw [hlk] at hrec
                exact ih _ v sub₂ hrec (hmem _ (lookupA_mem hlk))
            refine .map _ (nodup_updateA m k _ hnd) ?_
            intro kv hkv
            rcases mem_updateA hkv with rfl | hkv'
            · exact hsub₂
            · exact hmem _ hkv'

/-- Descending through an existing string leaf always fails: if the record
holds a string at path `p`, assigning at any strictly longer path through
`p` raises (TypeError or AttributeError), and the record is not rebuilt. -/
theorem add_value_blocked :
    ∀ (p : Path) (d : Value) (s : Key), observeV d p = some (some s) →
    ∀ (ext : Path) (v : Key), ext ≠ [] →
    ∀ d₂, add_value d (p ++ ext) v ≠ .ok d₂ := by
  intro p
  induction p with
  | nil =>
    intro d s hobs ext v hext d₂
    cases d with
    | map m => simp at hobs
    | str s' =>
      cases ext with
      | nil => exact absurd rfl hext
      | cons e rest =>
        cases rest with
        | nil => rw [List.nil_append, add_value_one_str]; simp
        | cons r₁ r' => rw [List.nil_append, add_value_cons_str]; simp
  | cons k p' ih =>
    intro d s hobs ext v hext d₂
    cases d with
    | str s' => simp at hobs
    | map m =>
      cases hlk : lookupA m k with
      | none => rw [observeV_cons_none _ hlk] at hobs; simp at hobs
      | some w =>
        rw [observeV_cons_some _ hlk] at hobs
        have hne : p' ++ ext ≠ [] := by
          cases ext with
          | nil => exact absurd rfl hext
          | cons e rest => simp
        cases hpe : p' ++ ext with
        | nil => exact absurd hpe hne
        | cons a b =>
          rw [List.cons_append, hpe, add_value_cons, hlk]
          cases hrec : add_value w (a :: b) v with
          | error e => simp [hrec]
          | ok sub' =>
            rw [← hpe] at hrec
            exact absurd hrec (ih w s hobs ext v hext sub')

/-- With a nonempty key list, `add_value` never raises the defensive
`NotImplementedError` (including in its recursive calls). -/
theorem add_value_ne_internal :
    ∀ (p : Path) (d : Value) (v : Key), p ≠ [] →
    add_value d p v ≠ .error .internalError := by
  intro p
  induction p with
  | nil => intro d v h; exact absurd rfl h
  | cons k rest ih =>
    intro d v _
    cases rest with
    | nil =>
      cases d with
      | str s => rw [add_value_one_str]; simp
      | map m => rw [add_value_one]; simp
    | cons r₁ r' =>
      cases d with
      | str s => rw [add_value_cons_str]; simp
      | map m =>
        rw [add_value_cons]
        cases hrec : add_value (match lookupA m k with
            | none => Value.map []
            | some w => w) (r₁ :: r') v with
        | error e =>
          intro h
          have he : e = .internalError := by
            have h2 : (Except.error e : Except Err Value) = .error .internalError := h
            rwa [Except.error.injEq] at h2
          subst he
          exact absurd hrec (ih _ v (by simp))
        | ok sub₂ => simp

/-- `key.split(".")` never returns an empty list of segments. -/
theorem splitDot_ne_nil : ∀ (l : List Char), splitDot l ≠ [] := by
  intro l
  induction l with
  | nil => simp [splitDot]
  | cons c rest ih =>
    rw [splitDot]
    by_cases h : c = '.'
    · simp [h]
    · rw [if_neg h]
      cases hs : splitDot rest <;> simp

/-- A successfully parsed line always carries a nonempty key path. -/
theorem parseLine_path_ne_nil {line : List Char} {p : Path} {v : Key}
    (h : parseLine line = .ok (p, v)) : p ≠ [] := by
  unfold parseLine at h
  split at h
  · rw [Except.ok.injEq, Prod.mk.injEq] at h
    obtain ⟨h1, h2⟩ := h
    rw [← h1]
    exact splitDot_ne_nil _
  · exact absurd h (by simp)

/-- A failing line parse always raises the unpack `ValueError`. -/
theorem parseLine_error {line : List Char} {e : Err}
    (h : parseLine line = .error e) : e = .valueError := by
  unfold parseLine at h
  split at h
  · exact absurd h (by simp)
  · injection h with h'
    exact h'.symm

/-- One loop iteration never raises the defensive `NotImplementedError`. -/
theorem processLine_ne_internal (d : Value) (line : List Char) :
    processLine d line ≠ .error .internalError := by
  unfold processLine
  cases hp : parseLine line with
  | error e =>
    have := parseLine_error hp
    subst this
    simp [Bind.bind, Except.bind]
  | ok pv =>
    obtain ⟨pp, vv⟩ := pv
    simp only [Bind.bind, Except.bind]
    exact add_value_ne_internal pp d vv (parseLine_path_ne_nil hp)

/-- The whole input loop never raises the defensive
`NotImplementedError`. -/
theorem parseFrom_ne_internal :
    ∀ (lines : List (List Char)) (d : Value),
    parseFrom d lines ≠ .error .internalError := by
  intro lines
  induction lines with
  | nil => intro d; simp [parseFrom]
  | cons line rest ih =>
    intro d
    rw [parseFrom]
    cases hp : processLine d line with
    | error e =>
      intro h
      have he : e = .internalError := by
        have h2 : (Except.error e : Except Err Value) = .error .internalError := h
        rwa [Except.error.injEq] at h2
      subst he
      exact absurd hp (processLine_ne_internal d line)
    | ok d' => exact ih d'

/-! ### Characterising the whole built record -/

theorem lastVal_cons (q : Path) (v : Key) (rest : List (Path × Key)) (p : Path) :
    lastVal ((q, v) :: rest) p =
      match lastVal rest p with
      | some w => some w
      | none => if q = p then some v else none := rfl

theorem lastVal_append_single (ps : List (Path × Key)) (q : Path) (v : Key)
    (p : Path) :
    lastVal (ps ++ [(q, v)]) p = if q = p then some v else lastVal ps p := by
  induction ps with
  | nil =>
    rw [List.nil_append, lastVal_cons]
    cases hq : decide (q = p) <;> simp_all [lastVal]
  | cons pv rest ih =>
    obtain ⟨q', v'⟩ := pv
    rw [List.cons_append, lastVal_cons, lastVal_cons, ih]
    by_cases hq : q = p
    · simp [hq]
    · simp [hq]

theorem lastVal_eq_none {ps : List (Path × Key)} {p : Path} :
    lastVal ps p = none ↔ p ∉ pathsOf ps := by
  induction ps with
  | nil => simp [lastVal, pathsOf]
  | cons pv rest ih =>
    obtain ⟨q, v⟩ := pv
    rw [lastVal_cons]
    have hco : pathsOf ((q, v) :: rest) = q :: pathsOf rest := rfl
    rw [hco]
    cases hl : lastVal rest p with
    | some w =>
      have hmem : p ∈ pathsOf rest := by
        by_contra hq
        rw [ih.mpr hq] at hl
        exact absurd hl (by simp)
      simp [List.mem_cons_of_mem _ hmem]
    | none =>
      have hmem : p ∉ pathsOf rest := ih.mp hl
      by_cases hq : q = p
      · subst hq; simp
      · simp [hq, hmem, Ne.symm hq]

theorem lastVal_some_mem {ps : List (Path × Key)} {q : Path} {w : Key}
    (h : lastVal ps q = some w) : q ∈ pathsOf ps := by
  by_contra hq
  rw [lastVal_eq_none.mpr hq] at h
  exact absurd h (by simp)

theorem pathsOf_append (ps qs : List (Path × Key)) :
    pathsOf (ps ++ qs) = pathsOf ps ++ pathsOf qs := by
  simp [pathsOf]

theorem buildFrom_nil (d : Value) : buildFrom d [] = .ok d := rfl

theorem buildFrom_cons (d : Value) (pv : Path × Key) (rest : List (Path × Key)) :
    buildFrom d (pv :: rest) =
      match add_value d pv.1 pv.2 with
      | .error e => .error e
      | .ok d' => buildFrom d' rest := rfl

theorem buildFrom_append (d : Value) (ps₁ ps₂ : List (Path × Key)) :
    buildFrom d (ps₁ ++ ps₂) =
      match buildFrom d ps₁ with
      | .error e => .error e
      | .ok d' => buildFrom d' ps₂ := by
  induction ps₁ generalizing d with
  | nil => rw [List.nil_append, buildFrom_nil]
  | cons pv rest ih =>
    rw [List.cons_append, buildFrom_cons, buildFrom_cons]
    cases ha : add_value d pv.1 pv.2 with
    | error e => rfl
    | ok d' => exact ih d'

theorem charObs_eq (ps : List (Path × Key)) (q : Path) :
    charObs ps q =
      if q = [] then some none
      else
        match lastVal ps q with
        | some v => some (some v)
        | none => if ps.any (fun r => isSPre q r.1) then some none else none := rfl

/-- Building the record from pairs whose paths are nonempty and pairwise
prefix-free succeeds, yields a well-formed record, and its observations are
exactly `charObs`: each assigned path holds its last value, strict prefixes
of assigned paths are dict nodes, everything else is absent. -/
theorem build_char :
    ∀ (ps : List (Path × Key)),
    (∀ p q, p ∈ pathsOf ps → q ∈ pathsOf ps → isSPre p q = false) →
    (∀ p, p ∈ pathsOf ps → p ≠ []) →
    ∃ d, buildRecord ps = .ok d ∧ WFV d ∧ ∀ q, observeV d q = charObs ps q := by
  intro ps
  induction ps using List.reverseRecOn with
  | nil =>
    intro _ _
    refine ⟨.map [], rfl, .map [] (by simp) (by simp), ?_⟩
    intro q
    cases q with
    | nil => rfl
    | cons a t =>
      rw [charObs_eq, if_neg (by simp), observeV_empty_map _ (by simp)]
      rfl
  | append_singleton ps pv ih =>
    obtain ⟨p, v⟩ := pv
    intro hnp hne
    have hmemp : p ∈ pathsOf (ps ++ [(p, v)]) := by
      rw [pathsOf_append]
      simp [pathsOf]
    have hsubset : ∀ a, a ∈ pathsOf ps → a ∈ pathsOf (ps ++ [(p, v)]) := by
      intro a ha
      rw [pathsOf_append]
      exact List.mem_append_left _ ha
    obtain ⟨d, hb, hwf, hchar⟩ :=
      ih (fun a b ha hb => hnp a b (hsubset a ha) (hsubset b hb))
        (fun a ha => hne a (hsubset a ha))
    have hpne : p ≠ [] := hne p hmemp
    have hpre : ∀ r, isSPre r p = true → isLeafO (observeV d r) = false := by
      intro r hr
      rw [hchar r, charObs_eq]
      by_cases hr0 : r = []
      · rw [if_pos hr0]; rfl
      · rw [if_neg hr0]
        cases hl : lastVal ps r with
        | some w =>
          exfalso
          have := hnp r p (hsubset r (lastVal_some_mem hl)) hmemp
          rw [this] at hr
          exact absurd hr (by simp)
        | none =>
          have hgoal :
              isLeafO (if ps.any (fun rr => isSPre r rr.1) then some none else none) =
                false := by
            split <;> rfl
          exact hgoal
    obtain ⟨d₂, hadd, hchar₂⟩ := add_value_char p d v hpne hpre
    refine ⟨d₂, ?_, add_value_wf p d v d₂ hadd hwf, ?_⟩
    · show buildFrom (Value.map []) (ps ++ [(p, v)]) = .ok d₂
      rw [buildFrom_append]
      rw [show buildFrom (Value.map []) ps = .ok d from hb]
      show buildFrom d [(p, v)] = .ok d₂
      rw [buildFrom_cons, hadd]
      rfl
    · intro q
      rw [hchar₂ q]
      by_cases hq0 : q = []
      · subst hq0
        rw [if_neg (Ne.symm hpne)]
        have hsp : isSPre ([] : Path) p = true := by
          cases p with
          | nil => exact absurd rfl hpne
          | cons a b => simp
        rw [if_pos hsp, charObs_eq, if_pos rfl]
      · by_cases hqp : q = p
        · subst hqp
          rw [if_pos rfl, charObs_eq, if_neg hq0, lastVal_append_single, if_pos rfl]
        · rw [if_neg hqp]
          by_cases h1 : isSPre q p = true
          · rw [if_pos h1, charObs_eq, if_neg hq0, lastVal_append_single,
              if_neg (show ¬p = q from fun hh => hqp hh.symm)]
            cases hl : lastVal ps q with
            | some w =>
              exfalso
              have := hnp q p (hsubset q (lastVal_some_mem hl)) hmemp
              rw [this] at h1
              exact absurd h1 (by simp)
            | none =>
              have hany : (ps ++ [(p, v)]).any (fun rr => isSPre q rr.1) = true := by
                rw [List.any_append]
                simp [h1]
              rw [if_pos hany]
          · by_cases h2 : isSPre p q = true
            · rw [if_neg h1, if_pos h2, charObs_eq, if_neg hq0, lastVal_append_single,
                if_neg (show ¬p = q from fun hh => hqp hh.symm)]
              cases hl : lastVal ps q with
              | some w =>
                exfalso
                have := hnp p q hmemp (hsubset q (lastVal_some_mem hl))
                rw [this] at h2
                exact absurd h2 (by simp)
              | none =>
                have hps : ps.any (fun rr => isSPre q rr.1) = false := by
                  cases hb2 : ps.any (fun rr => isSPre q rr.1) with
                  | false => rfl
                  | true =>
                    exfalso
                    obtain ⟨rr, hrr, hqr⟩ := List.any_eq_true.mp hb2
                    have htr : isSPre p rr.1 = true := isSPre_trans h2 hqr
                    have : rr.1 ∈ pathsOf ps := List.mem_map_of_mem Prod.fst hrr
                    have hfalse := hnp p rr.1 hmemp (hsubset rr.1 this)
                    rw [hfalse] at htr
                    exact absurd htr (by simp)
                have hsing : isSPre q p = false := by
                  cases hb2 : isSPre q p with
                  | false => rfl
                  | true => exact absurd hb2 h1
                have hany : (ps ++ [(p, v)]).any (fun rr => isSPre q rr.1) = false := by
                  rw [List.any_append, hps, Bool.false_or]
                  simp [hsing]
                rw [if_neg (by rw [hany]; simp)]
            · rw [if_neg h1, if_neg h2, hchar q, charObs_eq, charObs_eq,
                if_neg hq0, if_neg hq0, lastVal_append_single,
                if_neg (show ¬p = q from fun hh => hqp hh.symm)]
              cases hl : lastVal ps q with
              | some w => rfl
              | none =>
                have hsing : isSPre q p = false := by
                  cases hb2 : isSPre q p with
                  | false => rfl
                  | true => exact absurd hb2 h1
                have hany : ((ps ++ [(p, v)]).any fun rr => isSPre q rr.1) =
                    (ps.any fun rr => isSPre q rr.1) := by
                  rw [List.any_append]
                  have h3 : ([(p, v)] : List (Path × Key)).any (fun rr => isSPre q rr.1) = false := by
                    simp [hsing]
                  rw [h3, Bool.or_false]
                rw [hany]

/-! ### Walker lemmas -/

@[simp] theorem ok_bind {α β : Type} (x : α) (f : α → Except Err β) :
    (Except.ok x : Except Err α) >>= f = f x := rfl

@[simp] theorem error_bind {α β : Type} (e : Err) (f : α → Except Err β) :
    (Except.error e : Except Err α) >>= f = .error e := rfl

@[simp] theorem map_ok {α β : Type} (f : α → β) (x : α) :
    Except.map f (Except.ok x : Except Err α) = .ok (f x) := rfl

@[simp] theorem map_error {α β : Type} (f : α → β) (e : Err) :
    Except.map f (Except.error e : Except Err α) = .error e := rfl

/-- `update_player_stats` either raises, or succeeds having read all six
counters, adding each to its sum. -/
theorem update_player_stats_spec (s : PStats) (g : Value) (pl : Key) :
    (∃ e, update_player_stats s g pl = .error e) ∨
    (∃ m ex bc te tc md,
      readStat g pl movesK = .ok m ∧ readStat g pl exploredK = .ok ex ∧
      readStat g pl betaK = .ok bc ∧ readStat g pl ttExactK = .ok te ∧
      readStat g pl ttCutsK = .ok tc ∧ readStat g pl maxDepthK = .ok md ∧
      update_player_stats s g pl = .ok
        { s with
          moves := s.moves + m, explored := s.explored + ex,
          beta_cuts := s.beta_cuts + bc, tt_exact := s.tt_exact + te,
          tt_cuts := s.tt_cuts + tc, max_depth := s.max_depth + md }) := by
  unfold update_player_stats
  cases h1 : readStat g pl movesK with
  | error e => exact .inl ⟨e, by simp⟩
  | ok m =>
  cases h2 : readStat g pl exploredK with
  | error e => exact .inl ⟨e, by simp⟩
  | ok ex =>
  cases h3 : readStat g pl betaK with
  | error e => exact .inl ⟨e, by simp⟩
  | ok bc =>
  cases h4 : readStat g pl ttExactK with
  | error e => exact .inl ⟨e, by simp⟩
  | ok te =>
  cases h5 : readStat g pl ttCutsK with
  | error e => exact .inl ⟨e, by simp⟩
  | ok tc =>
  cases h6 : readStat g pl maxDepthK with
  | error e => exact .inl ⟨e, by simp⟩
  | ok md =>
    exact .inr ⟨m, ex, bc, te, tc, md, rfl, rfl, rfl, rfl, rfl, rfl, by simp⟩

/-- A successful `update_player_stats` leaves the outcome counters alone. -/
theorem update_player_stats_outcomes {s : PStats} {g : Value} {pl : Key}
    {s' : PStats} (h : update_player_stats s g pl = .ok s') :
    s'.wins = s.wins ∧ s'.draws = s.draws ∧ s'.losses = s.losses := by
  rcases update_player_stats_spec s g pl with ⟨e, he⟩ | ⟨m, ex, bc, te, tc, md, _, _, _, _, _, _, hok⟩
  · rw [he] at h; exact absurd h (by simp)
  · rw [hok] at h
    have : ({ s with
        moves := s.moves + m, explored := s.explored + ex,
        beta_cuts := s.beta_cuts + bc, tt_exact := s.tt_exact + te,
        tt_cuts := s.tt_cuts + tc, max_depth := s.max_depth + md } : PStats) = s' := by
      injection h
    rw [← this]
    exact ⟨rfl, rfl, rfl⟩

theorem drawK_ne_p1K : drawK ≠ p1K := by decide
theorem drawK_ne_p2K : drawK ≠ p2K := by decide
theorem p1K_ne_p2K : p1K ≠ p2K := by decide

/-- At most one winner literal matches a given winner value. -/
theorem winnerIs_excl {w : Value} {l₁ l₂ : Key} (hne : l₁ ≠ l₂)
    (h : winnerIs w l₁ = true) : winnerIs w l₂ = false := by
  cases w with
  | map m => rfl
  | str s =>
    unfold winnerIs at h ⊢
    have hs : s = l₁ := by simpa using h
    subst hs
    simpa using hne

/-- Field description of the outcome update. -/
theorem outcomeUpd_fields (w : Value) (st : WalkState) :
    (outcomeUpd w st).total_games = st.total_games ∧
    (outcomeUpd w st).player1.wins
      = st.player1.wins + (if winnerIs w p1K then 1 else 0) ∧
    (outcomeUpd w st).player1.draws
      = st.player1.draws + (if winnerIs w drawK then 1 else 0) ∧
    (outcomeUpd w st).player1.losses
      = st.player1.losses + (if winnerIs w p2K then 1 else 0) ∧
    (outcomeUpd w st).player2.wins
      = st.player2.wins + (if winnerIs w p2K then 1 else 0) ∧
    (outcomeUpd w st).player2.draws
      = st.player2.draws + (if winnerIs w drawK then 1 else 0) ∧
    (outcomeUpd w st).player2.losses
      = st.player2.losses + (if winnerIs w p1K then 1 else 0) ∧
    (outcomeUpd w st).player1.moves = st.player1.moves ∧
    (outcomeUpd w st).player1.explored = st.player1.explored ∧
    (outcomeUpd w st).player1.beta_cuts = st.player1.beta_cuts ∧
    (outcomeUpd w st).player1.tt_exact = st.player1.tt_exact ∧
    (outcomeUpd w st).player1.tt_cuts = st.player1.tt_cuts ∧
    (outcomeUpd w st).player1.max_depth = st.player1.max_depth ∧
    (outcomeUpd w st).player2.moves = st.player2.moves ∧
    (outcomeUpd w st).player2.explored = st.player2.explored ∧
    (outcomeUpd w st).player2.beta_cuts = st.player2.beta_cuts ∧
    (outcomeUpd w st).player2.tt_exact = st.player2.tt_exact ∧
    (outcomeUpd w st).player2.tt_cuts = st.player2.tt_cuts ∧
    (outcomeUpd w st).player2.max_depth = st.player2.max_depth := by
  unfold outcomeUpd
  by_cases hd : winnerIs w drawK = true
  · have h1 := winnerIs_excl drawK_ne_p1K hd
    have h2 := winnerIs_excl drawK_ne_p2K hd
    simp [hd, h1, h2]
  · have hd' : winnerIs w drawK = false := by
      cases hb : winnerIs w drawK with
      | false => rfl
      | true => exact absurd hb hd
    by_cases hp1 : winnerIs w p1K = true
    · have h2 := winnerIs_excl p1K_ne_p2K hp1
      simp [hd', hp1, h2]
    · have hp1' : winnerIs w p1K = false := by
        cases hb : winnerIs w p1K with
        | false => rfl
        | true => exact absurd hb hp1
      by_cases hp2 : winnerIs w p2K = true
      · simp [hd', hp1', hp2]
      · have hp2' : winnerIs w p2K = false := by
          cases hb : winnerIs w p2K with
          | false => rfl
          | true => exact absurd hb hp2
        simp [hd', hp1', hp2']

/-- `stepGame` either raises, or succeeds with the state obtained from the
outcome update followed by both players' stat accumulation. -/
theorem stepGame_spec (st : WalkState) (e : Key × Value) :
    (∃ err, stepGame st e = .error err) ∨
    (∃ w s1 s2, getKey e.2 winnerK = .ok w ∧
      update_player_stats (outcomeUpd w st).player1 e.2 p1K = .ok s1 ∧
      update_player_stats (outcomeUpd w st).player2 e.2 p2K = .ok s2 ∧
      stepGame st e = .ok ⟨st.total_games + 1, s1, s2⟩) := by
  unfold stepGame
  cases hw : getKey e.2 winnerK with
  | error err => exact .inl ⟨err, by simp⟩
  | ok w =>
  cases h1 : update_player_stats (outcomeUpd w st).player1 e.2 p1K with
  | error err => exact .inl ⟨err, by simp [h1]⟩
  | ok s1 =>
  cases h2 : update_player_stats (outcomeUpd w st).player2 e.2 p2K with
  | error err => exact .inl ⟨err, by simp [h1, h2]⟩
  | ok s2 =>
    exact .inr ⟨w, s1, s2, rfl, h1, h2, by simp [h1, h2]⟩

/-- The outcome counters and the game count after one successful step. -/
theorem stepGame_ok_outcomes {st : WalkState} {e : Key × Value} {s : WalkState}
    (h : stepGame st e = .ok s) :
    s.total_games = st.total_games + 1 ∧
    s.player1.wins = st.player1.wins + (if winnerOf e p1K then 1 else 0) ∧
    s.player1.draws = st.player1.draws + (if winnerOf e drawK then 1 else 0) ∧
    s.player1.losses = st.player1.losses + (if winnerOf e p2K then 1 else 0) ∧
    s.player2.wins = st.player2.wins + (if winnerOf e p2K then 1 else 0) ∧
    s.player2.draws = st.player2.draws + (if winnerOf e drawK then 1 else 0) ∧
    s.player2.losses = st.player2.losses + (if winnerOf e p1K then 1 else 0) := by
  rcases stepGame_spec st e with ⟨err, herr⟩ | ⟨w, s1, s2, hw, h1, h2, hok⟩
  · rw [herr] at h; exact absurd h (by simp)
  · rw [hok] at h
    have hs : (⟨st.total_games + 1, s1, s2⟩ : WalkState) = s := by injection h
    subst hs
    have hwof : ∀ lit, winnerOf e lit = winnerIs w lit := by
      intro lit
      unfold winnerOf
      rw [hw]
    obtain ⟨hu1w, hu1d, hu1l⟩ := update_player_stats_outcomes h1
    obtain ⟨hu2w, hu2d, hu2l⟩ := update_player_stats_outcomes h2
    obtain ⟨_, hw1, hd1, hl1, hw2, hd2, hl2, _⟩ := outcomeUpd_fields w st
    refine ⟨rfl, ?_, ?_, ?_, ?_, ?_, ?_⟩ <;>
      simp only [hwof, hu1w, hu1d, hu1l, hu2w, hu2d, hu2l, hw1, hd1, hl1, hw2, hd2, hl2]

theorem walkGames_nil (st : WalkState) : walkGames st [] = .ok st := rfl

theorem walkGames_cons (st : WalkState) (e : Key × Value)
    (rest : List (Key × Value)) :
    walkGames st (e :: rest) =
      match stepGame st e with
      | .error err => .error err
      | .ok st' => walkGames st' rest := rfl

theorem countWinner_nil (lit : Key) : countWinner [] lit = 0 := rfl

theorem countWinner_cons (e : Key × Value) (l : List (Key × Value)) (lit : Key) :
    countWinner (e :: l) lit =
      (if winnerOf e lit then 1 else 0) + countWinner l lit := by
  unfold countWinner
  rw [List.filter_cons]
  by_cases h : winnerOf e lit = true
  · simp [h]
    omega
  · simp [h]

/-- Outcome counters over a whole successful walk. -/
theorem walkGames_ok_outcomes :
    ∀ (l : List (Key × Value)) (st s : WalkState), walkGames st l = .ok s →
    s.total_games = st.total_games + l.length ∧
    s.player1.wins = st.player1.wins + countWinner l p1K ∧
    s.player1.draws = st.player1.draws + countWinner l drawK ∧
    s.player1.losses = st.player1.losses + countWinner l p2K ∧
    s.player2.wins = st.player2.wins + countWinner l p2K ∧
    s.player2.draws = st.player2.draws + countWinner l drawK ∧
    s.player2.losses = st.player2.losses + countWinner l p1K := by
  intro l
  induction l with
  | nil =>
    intro st s h
    rw [walkGames_nil] at h
    have : st = s := by injection h
    subst this
    simp [countWinner_nil]
  | cons e rest ih =>
    intro st s h
    rw [walkGames_cons] at h
    cases hstep : stepGame st e with
    | error err => rw [hstep] at h; exact absurd h (by simp)
    | ok st₁ =>
      rw [hstep] at h
      obtain ⟨ht, hw1, hd1, hl1, hw2, hd2, hl2⟩ := stepGame_ok_outcomes hstep
      obtain ⟨ht', hw1', hd1', hl1', hw2', hd2', hl2'⟩ := ih st₁ s h
      refine ⟨?_, ?_, ?_, ?_, ?_, ?_, ?_⟩
      · rw [ht', ht, List.length_cons]; push_cast; omega
      · rw [countWinner_cons, hw1', hw1, Int.add_assoc]
      · rw [countWinner_cons, hd1', hd1, Int.add_assoc]
      · rw [countWinner_cons, hl1', hl1, Int.add_assoc]
      · rw [countWinner_cons, hw2', hw2, Int.add_assoc]
      · rw [countWinner_cons, hd2', hd2, Int.add_assoc]
      · rw [countWinner_cons, hl2', hl2, Int.add_assoc]

/-! ### Splitting on the separator -/

theorem bool_not_true {b : Bool} (h : ¬b = true) : b = false := by
  cases b with
  | false => rfl
  | true => exact absurd rfl h

theorem isPre_sepL_iff (c c2 c3 : Char) (r : List Char) :
    isPre sepL (c :: c2 :: c3 :: r) = true ↔ (c = ' ' ∧ c2 = '=' ∧ c3 = ' ') := by
  show isPre [' ', '=', ' '] _ = true ↔ _
  by_cases h1 : c = ' ' <;> by_cases h2 : c2 = '=' <;> by_cases h3 : c3 = ' ' <;>
    simp [isPre, h1, h2, h3, eq_comm]

theorem hasSep_cons (c : Char) (rest : List Char) :
    hasSep (c :: rest) = (isPre sepL (c :: rest) || hasSep rest) := rfl

/-- A chunk without the separator is returned whole by the split. -/
theorem splitEq_no : ∀ (v : List Char), hasSep v = false → splitEq v = [v] := by
  intro v
  induction v with
  | nil => intro _; rfl
  | cons c rest ih =>
    intro h
    rw [hasSep_cons] at h
    obtain ⟨hns, hrest⟩ := by simpa using h
    cases rest with
    | nil => rfl
    | cons c2 rest2 =>
      cases rest2 with
      | nil => rfl
      | cons c3 r =>
        show splitEq (c :: c2 :: c3 :: r) = _
        simp only [splitEq]
        rw [if_neg (fun hc => by
          rw [(isPre_sepL_iff c c2 c3 r).mpr hc] at hns
          exact absurd hns (by simp))]
        rw [ih hrest]
        rfl

theorem splitEq_sep_append (v : List Char) :
    splitEq (sepL ++ v) = [] :: splitEq v := by
  show splitEq (' ' :: '=' :: ' ' :: v) = [] :: splitEq v
  simp [splitEq]

theorem splitEq_cons_not_sep (c : Char) (t : List Char) (hlen : 2 ≤ t.length)
    (hns : isPre sepL (c :: t) = false) :
    splitEq (c :: t) = pushChar c (splitEq t) := by
  cases t with
  | nil => simp at hlen
  | cons c2 t2 =>
    cases t2 with
    | nil => simp at hlen
    | cons c3 r =>
      show splitEq (c :: c2 :: c3 :: r) = _
      simp only [splitEq]
      rw [if_neg (fun hc => by
        rw [(isPre_sepL_iff c c2 c3 r).mpr hc] at hns
        exact absurd hns (by simp))]

/-- Splitting a line whose first separator occurrence sits right after `k`
closes the first chunk exactly at `k`. -/
theorem splitEq_first : ∀ (k v : List Char),
    noSepWithin k.length (k ++ sepL ++ v) = true →
    splitEq (k ++ sepL ++ v) = k :: splitEq v := by
  intro k
  induction k with
  | nil =>
    intro v _
    rw [List.nil_append]
    exact splitEq_sep_append v
  | cons c k' ih =>
    intro v h
    rw [List.cons_append, List.cons_append] at h ⊢
    rw [List.length_cons] at h
    have h' : (!isPre sepL (c :: (k' ++ sepL ++ v))
        && noSepWithin k'.length (k' ++ sepL ++ v)) = true := h
    obtain ⟨hns', hrest⟩ := (Bool.and_eq_true _ _).mp h'
    have hns : isPre sepL (c :: (k' ++ sepL ++ v)) = false := by
      cases hb : isPre sepL (c :: (k' ++ sepL ++ v)) with
      | false => rfl
      | true => rw [hb] at hns'; exact absurd hns' (by simp)
    have hlen : 2 ≤ (k' ++ sepL ++ v).length := by
      rw [List.append_assoc, List.length_append, List.length_append]
      simp [sepL]
      omega
    rw [splitEq_cons_not_sep c _ hlen hns, ih v hrest]
    rfl

/-! ### Counting recognised winners -/

theorem winnerOf_excl {e : Key × Value} {l₁ l₂ : Key} (hne : l₁ ≠ l₂)
    (h : winnerOf e l₁ = true) : winnerOf e l₂ = false := by
  unfold winnerOf at h ⊢
  cases hk : getKey e.2 winnerK with
  | error err => rw [hk] at h
  | ok w =>
    rw [hk] at h
    have hw : winnerIs w l₁ = true := h
    show winnerIs w l₂ = false
    exact winnerIs_excl hne hw

theorem countKnown_nil : countKnown [] = 0 := rfl

theorem countKnown_cons (e : Key × Value) (l : List (Key × Value)) :
    countKnown (e :: l) = (if winnerKnown e then 1 else 0) + countKnown l := by
  unfold countKnown
  rw [List.filter_cons]
  by_cases h : winnerKnown e = true
  · simp [h]
    omega
  · simp [h]

theorem known_indicator (e : Key × Value) :
    (if winnerOf e drawK then (1 : Int) else 0)
      + (if winnerOf e p1K then 1 else 0) + (if winnerOf e p2K then 1 else 0)
      = (if winnerKnown e then 1 else 0) := by
  unfold winnerKnown
  by_cases hd : winnerOf e drawK = true
  · rw [hd, winnerOf_excl drawK_ne_p1K hd, winnerOf_excl drawK_ne_p2K hd]
    simp
  · rw [bool_not_true hd]
    by_cases hp1 : winnerOf e p1K = true
    · rw [hp1, winnerOf_excl p1K_ne_p2K hp1]
      simp
    · rw [bool_not_true hp1]
      by_cases hp2 : winnerOf e p2K = true
      · rw [hp2]; simp
      · rw [bool_not_true hp2]; simp

theorem counts_split : ∀ (l : List (Key × Value)),
    countWinner l drawK + countWinner l p1K + countWinner l p2K = countKnown l := by
  intro l
  induction l with
  | nil => rfl
  | cons e rest ih =>
    rw [countWinner_cons, countWinner_cons, countWinner_cons, countKnown_cons,
      ← ih, ← known_indicator e]
    ring

/-! ### The run on a record without games -/

theorem getKey_map (m : Dict) (k : Key) :
    getKey (.map m) k =
      match lookupA m k with
      | none => .error .keyError
      | some w => .ok w := rfl

theorem add_value_root_map {m : Dict} {p : Path} {v : Key} {d' : Value}
    (h : add_value (.map m) p v = .ok d') : ∃ m', d' = .map m' := by
  cases p with
  | nil => rw [add_value_nil] at h; exact absurd h (by simp)
  | cons k rest =>
    cases rest with
    | nil =>
      rw [add_value_one] at h
      exact ⟨updateA m k (.str v), by injection h; simp_all⟩
    | cons r₁ r' =>
      rw [add_value_cons] at h
      cases hrec : add_value (match lookupA m k with
          | none => Value.map []
          | some w => w) (r₁ :: r') v with
      | error e => rw [hrec] at h; exact absurd h (by simp)
      | ok sub₂ =>
        rw [hrec] at h
        exact ⟨updateA m k sub₂, by injection h; simp_all⟩

theorem parseFrom_root : ∀ (lines : List (List Char)) (m : Dict) (d : Value),
    parseFrom (.map m) lines = .ok d → ∃ m', d = .map m' := by
  intro lines
  induction lines with
  | nil =>
    intro m d h
    rw [parseFrom] at h
    exact ⟨m, by injection h; simp_all⟩
  | cons line rest ih =>
    intro m d h
    rw [parseFrom] at h
    cases hp : processLine (.map m) line with
    | error e => rw [hp] at h; exact absurd h (by simp)
    | ok d' =>
      rw [hp] at h
      unfold processLine at hp
      cases hl : parseLine line with
      | error e => rw [hl] at hp; exact absurd hp (by simp)
      | ok pv =>
        rw [hl, ok_bind] at hp
        obtain ⟨m', rfl⟩ := add_value_root_map hp
        exact ih m' d h

/-! ### Walker states form a commutative monoid under pointwise sum -/

theorem addP_zero (a : PStats) : addP a zeroP = a := by
  obtain ⟨w, d, l, m, ex, bc, te, tc, md⟩ := a
  simp [addP, zeroP]

theorem addW_zero (a : WalkState) : addW a zeroW = a := by
  obtain ⟨t, p1, p2⟩ := a
  simp [addW, zeroW, addP_zero]

theorem addP_right_comm (a x y : PStats) :
    addP (addP a x) y = addP (addP a y) x := by
  obtain ⟨w, d, l, m, ex, bc, te, tc, md⟩ := a
  obtain ⟨w1, d1, l1, m1, ex1, bc1, te1, tc1, md1⟩ := x
  obtain ⟨w2, d2, l2, m2, ex2, bc2, te2, tc2, md2⟩ := y
  simp only [addP, PStats.mk.injEq]
  omega

theorem addW_right_comm (a x y : WalkState) :
    addW (addW a x) y = addW (addW a y) x := by
  simp only [addW, WalkState.mk.injEq]
  refine ⟨by omega, addP_right_comm .., addP_right_comm ..⟩

theorem addW_assoc (a b c : WalkState) :
    addW (addW a b) c = addW a (addW b c) := by
  obtain ⟨t, ⟨w, d, l, m, ex, bc, te, tc, md⟩, ⟨w', d', l', m', ex', bc', te', tc', md'⟩⟩ := a
  obtain ⟨t1, ⟨w1, d1, l1, m1, ex1, bc1, te1, tc1, md1⟩, ⟨w2, d2, l2, m2, ex2, bc2, te2, tc2, md2⟩⟩ := b
  obtain ⟨t3, ⟨w3, d3, l3, m3, ex3, bc3, te3, tc3, md3⟩, ⟨w4, d4, l4, m4, ex4, bc4, te4, tc4, md4⟩⟩ := c
  simp only [addW, addP, WalkState.mk.injEq, PStats.mk.injEq]
  omega

/-- Accumulating into a shifted accumulator shifts the result. -/
theorem update_shift (a s : PStats) (g : Value) (pl : Key) :
    update_player_stats (addP a s) g pl
      = Except.map (addP a) (update_player_stats s g pl) := by
  obtain ⟨aw, ad, al, am, aex, abc, ate, atc, amd⟩ := a
  obtain ⟨sw, sd, sl, sm, sex, sbc, ste, stc, smd⟩ := s
  unfold update_player_stats
  cases h1 : readStat g pl movesK with
  | error e => simp
  | ok m =>
  cases h2 : readStat g pl exploredK with
  | error e => simp
  | ok ex =>
  cases h3 : readStat g pl betaK with
  | error e => simp
  | ok bc =>
  cases h4 : readStat g pl ttExactK with
  | error e => simp
  | ok te =>
  cases h5 : readStat g pl ttCutsK with
  | error e => simp
  | ok tc =>
  cases h6 : readStat g pl maxDepthK with
  | error e => simp
  | ok md =>
    simp only [ok_bind, map_ok]
    simp [addP]
    omega

theorem outcomeUpd_shift (w : Value) (a b : WalkState) :
    outcomeUpd w (addW a b) = addW a (outcomeUpd w b) := by
  unfold outcomeUpd
  split_ifs <;> first
    | rfl
    | (simp [addW, addP]; omega)

theorem stepGame_shift (a b : WalkState) (e : Key × Value) :
    stepGame (addW a b) e = Except.map (addW a) (stepGame b e) := by
  unfold stepGame
  cases hw : getKey e.2 winnerK with
  | error err => simp
  | ok w =>
    simp only [ok_bind]
    rw [outcomeUpd_shift]
    have hp1 : (addW a (outcomeUpd w b)).player1
        = addP a.player1 (outcomeUpd w b).player1 := rfl
    have hp2 : (addW a (outcomeUpd w b)).player2
        = addP a.player2 (outcomeUpd w b).player2 := rfl
    rw [hp1, hp2, update_shift, update_shift]
    cases h1 : update_player_stats (outcomeUpd w b).player1 e.2 p1K with
    | error err => simp
    | ok s1 =>
      cases h2 : update_player_stats (outcomeUpd w b).player2 e.2 p2K with
      | error err => simp
      | ok s2 =>
        simp only [map_ok, ok_bind]
        congr 1
        simp [addW]
        omega

theorem stepGame_delta (st : WalkState) (e : Key × Value) :
    stepGame st e = Except.map (addW st) (stepGame zeroW e) := by
  have h := stepGame_shift st zeroW e
  rwa [addW_zero] at h

/-- When every entry's step succeeds from the zero state, the walk is the
fold of the per-entry deltas. -/
theorem walkGames_eq_fold : ∀ (l : List (Key × Value)) (st : WalkState),
    (∀ e ∈ l, ∃ δ, stepGame zeroW e = .ok δ) →
    walkGames st l = .ok (l.foldl (fun acc e => addW acc (okDelta e)) st) := by
  intro l
  induction l with
  | nil => intro st _; rfl
  | cons e rest ih =>
    intro st h
    obtain ⟨δ, hδ⟩ := h e (List.mem_cons_self _ _)
    have hstep : stepGame st e = .ok (addW st δ) := by
      rw [stepGame_delta, hδ, map_ok]
    rw [walkGames_cons, hstep]
    have hok : okDelta e = δ := by unfold okDelta; rw [hδ]
    rw [List.foldl_cons, hok]
    exact ih (addW st δ) (fun e' he' => h e' (List.mem_cons_of_mem _ he'))

/-- A successful walk means every entry's step from zero succeeds. -/
theorem walkGames_ok_all : ∀ (l : List (Key × Value)) (st s : WalkState),
    walkGames st l = .ok s →
    ∀ e ∈ l, ∃ δ, stepGame zeroW e = .ok δ := by
  intro l
  induction l with
  | nil => intro st s _ e he; simp at he
  | cons e rest ih =>
    intro st s h e' he'
    rw [walkGames_cons] at h
    cases hs : stepGame st e with
    | error err => rw [hs] at h; exact absurd h (by simp)
    | ok st' =>
      rw [hs] at h
      rcases List.mem_cons.mp he' with rfl | hmem
      · cases hz : stepGame zeroW e' with
        | ok δ => exact ⟨δ, rfl⟩
        | error err =>
          exfalso
          rw [stepGame_delta st e', hz] at hs
          exact absurd hs (by simp)
      · exact ih st' s h e' hmem

theorem foldl_addW_perm {l l' : List WalkState} (h : l.Perm l') :
    ∀ st, l.foldl addW st = l'.foldl addW st := by
  induction h with
  | nil => intro st; rfl
  | cons x _ ih => intro st; rw [List.foldl_cons, List.foldl_cons, ih]
  | swap x y l =>
    intro st
    rw [List.foldl_cons, List.foldl_cons, List.foldl_cons, List.foldl_cons,
      addW_right_comm]
  | trans _ _ ih1 ih2 => intro st; rw [ih1, ih2]

theorem perm_any {α : Type} {l l' : List α} (h : l.Perm l') (f : α → Bool) :
    l.any f = l'.any f := by
  cases hb : l.any f with
  | true =>
    obtain ⟨x, hx, hfx⟩ := List.any_eq_true.mp hb
    exact (List.any_eq_true.mpr ⟨x, h.subset hx, hfx⟩).symm
  | false =>
    cases hb' : l'.any f with
    | false => rfl
    | true =>
      obtain ⟨x, hx, hfx⟩ := List.any_eq_true.mp hb'
      rw [List.any_eq_true.mpr ⟨x, h.symm.subset hx, hfx⟩] at hb
      exact hb.symm

/-! ### The walker only sees the record through its observations -/

theorem getKey_congr {v v' : Value} (hv : ∀ q, observeV v q = observeV v' q)
    (key : Key) :
    (∃ e, getKey v key = .error e ∧ getKey v' key = .error e) ∨
    (∃ w w', getKey v key = .ok w ∧ getKey v' key = .ok w' ∧
      ∀ q, observeV w q = observeV w' q) := by
  cases v with
  | str s =>
    cases v' with
    | str s' => exact .inl ⟨.typeError, rfl, rfl⟩
    | map m' => exact absurd (hv []) (by simp)
  | map m =>
    cases v' with
    | str s' => exact absurd (hv []) (by simp)
    | map m' =>
      cases hl : lookupA m key with
      | none =>
        cases hl' : lookupA m' key with
        | none =>
          refine .inl ⟨.keyError, ?_, ?_⟩ <;> rw [getKey_map]
          · rw [hl]
          · rw [hl']
        | some w' =>
          exfalso
          have h := hv [key]
          rw [observeV_cons_none [] hl, observeV_cons_some [] hl'] at h
          cases w' <;> simp at h
      | some w =>
        cases hl' : lookupA m' key with
        | none =>
          exfalso
          have h := hv [key]
          rw [observeV_cons_some [] hl, observeV_cons_none [] hl'] at h
          cases w <;> simp at h
        | some w' =>
          refine .inr ⟨w, w', ?_, ?_, ?_⟩
          · rw [getKey_map, hl]
          · rw [getKey_map, hl']
          · intro q
            have h := hv (key :: q)
            rwa [observeV_cons_some q hl, observeV_cons_some q hl'] at h

theorem toInt_congr {v v' : Value} (hv : ∀ q, observeV v q = observeV v' q) :
    toInt v = toInt v' := by
  cases v with
  | str s =>
    cases v' with
    | str s' =>
      have h := hv []
      simp at h
      rw [h]
    | map m' => exact absurd (hv []) (by simp)
  | map m =>
    cases v' with
    | str s' => exact absurd (hv []) (by simp)
    | map m' => rfl

theorem winnerIs_congr {w w' : Value} (hw : ∀ q, observeV w q = observeV w' q)
    (lit : Key) : winnerIs w lit = winnerIs w' lit := by
  cases w with
  | str s =>
    cases w' with
    | str s' =>
      have h := hw []
      simp at h
      rw [winnerIs, winnerIs, h]
    | map m' => exact absurd (hw []) (by simp)
  | map m =>
    cases w' with
    | str s' => exact absurd (hw []) (by simp)
    | map m' => rfl

theorem readStat_congr {g g' : Value} (hg : ∀ q, observeV g q = observeV g' q)
    (pl : Key) : ∀ f, readStat g pl f = readStat g' pl f := by
  intro f
  unfold readStat
  rcases getKey_congr hg pl with ⟨e, h1, h2⟩ | ⟨pv, pv', h1, h2, hpv⟩
  · rw [h1, h2]
  · rw [h1, h2, ok_bind, ok_bind]
    rcases getKey_congr hpv f with ⟨e, h3, h4⟩ | ⟨fv, fv', h3, h4, hfv⟩
    · rw [h3, h4]
    · rw [h3, h4, ok_bind, ok_bind, toInt_congr hfv]

theorem update_congr {g g' : Value} (hg : ∀ q, observeV g q = observeV g' q)
    (s : PStats) (pl : Key) :
    update_player_stats s g pl = update_player_stats s g' pl := by
  unfold update_player_stats
  simp only [readStat_congr hg pl]

theorem outcomeUpd_congr {w w' : Value} (hw : ∀ q, observeV w q = observeV w' q)
    (st : WalkState) : outcomeUpd w st = outcomeUpd w' st := by
  unfold outcomeUpd
  rw [winnerIs_congr hw drawK, winnerIs_congr hw p1K, winnerIs_congr hw p2K]

/-- The step on a game entry depends only on the entry's observations (not
on its id or the internal ordering of its dicts). -/
theorem stepGame_congr (e e' : Key × Value)
    (hv : ∀ q, observeV e.2 q = observeV e'.2 q) (st : WalkState) :
    stepGame st e = stepGame st e' := by
  unfold stepGame
  rcases getKey_congr hv winnerK with ⟨err, h1, h2⟩ | ⟨w, w', h1, h2, hw⟩
  · rw [h1, h2]
    rfl
  · rw [h1, h2, ok_bind, ok_bind, outcomeUpd_congr hw st]
    simp only [update_congr hv]

theorem lookupA_of_mem_nodup :
    ∀ {m : Dict}, (m.map Prod.fst).Nodup →
    ∀ {k : Key} {v : Value}, (k, v) ∈ m → lookupA m k = some v := by
  intro m
  induction m with
  | nil => intro _ k v h; simp at h
  | cons kv rest ih =>
    obtain ⟨k', v'⟩ := kv
    intro hnd k v hmem
    rw [List.map_cons, List.nodup_cons] at hnd
    obtain ⟨hknotin, hnd'⟩ := hnd
    rcases List.mem_cons.mp hmem with heq | hmem'
    · obtain ⟨h1, h2⟩ : k = k' ∧ v = v' := by simpa using heq
      subst h1
      subst h2
      rw [lookupA_cons, if_pos rfl]
    · have hk : k ∈ rest.map Prod.fst := List.mem_map_of_mem Prod.fst hmem'
      have hne : k' ≠ k := fun h => hknotin (h ▸ hk)
      rw [lookupA_cons, if_neg hne]
      exact ih hnd' hmem'

theorem mem_fst_iff_lookupA :
    ∀ {m : Dict} {k : Key}, k ∈ m.map Prod.fst ↔ ∃ v, lookupA m k = some v := by
  intro m k
  induction m with
  | nil => simp
  | cons kv rest ih =>
    obtain ⟨k', v'⟩ := kv
    by_cases hk : k' = k
    · subst hk
      constructor
      · intro _
        exact ⟨v', by rw [lookupA_cons, if_pos rfl]⟩
      · intro _
        rw [List.map_cons]
        exact List.mem_cons_self _ _
    · rw [List.map_cons, List.mem_cons]
      constructor
      · rintro (heq | hmem)
        · exact absurd heq.symm hk
        · obtain ⟨v, hv⟩ := ih.mp hmem
          exact ⟨v, by rw [lookupA_cons, if_neg hk]; exact hv⟩
      · rintro ⟨v, hv⟩
        rw [lookupA_cons, if_neg hk] at hv
        exact .inr (ih.mpr ⟨v, hv⟩)

theorem WFV_map_nodup {m : Dict} (h : WFV (.map m)) :
    (m.map Prod.fst).Nodup := by
  cases h with
  | map _ hnd _ => exact hnd

theorem WFV_map_mem {m : Dict} (h : WFV (.map m)) {kv : Key × Value}
    (hm : kv ∈ m) : WFV kv.2 := by
  cases h with
  | map _ _ hmem => exact hmem _ hm

theorem getKey_ok_wf {d : Value} (hwf : WFV d) {k : Key} {w : Value}
    (h : getKey d k = .ok w) : WFV w := by
  cases d with
  | str s => exact absurd h (by simp [getKey])
  | map m =>
    rw [getKey_map] at h
    cases hl : lookupA m k with
    | none => rw [hl] at h; exact absurd h (by simp)
    | some w' =>
      rw [hl] at h
      have hww : w' = w := by injection h
      subst hww
      exact WFV_map_mem hwf (lookupA_mem hl)

/-- Two game dicts with distinct keys each and equal observations yield the
same successful walk: the order the mapping hands out its entries is
irrelevant. -/
theorem walk_entries_congr (gs gs' : Dict)
    (hnd : (gs.map Prod.fst).Nodup) (hnd' : (gs'.map Prod.fst).Nodup)
    (hobs : ∀ q, observeV (.map gs) q = observeV (.map gs') q) :
    ∀ s, walkGames zeroW gs = .ok s → walkGames zeroW gs' = .ok s := by
  intro s hwalk
  have hmemiff : ∀ k, k ∈ gs.map Prod.fst ↔ k ∈ gs'.map Prod.fst := by
    intro k
    rw [mem_fst_iff_lookupA, mem_fst_iff_lookupA]
    constructor
    · rintro ⟨v, hv⟩
      cases hl' : lookupA gs' k with
      | none =>
        exfalso
        have h := hobs [k]
        rw [observeV_cons_some [] hv, observeV_cons_none [] hl'] at h
        cases v <;> simp at h
      | some v' => exact ⟨v', rfl⟩
    · rintro ⟨v', hv'⟩
      cases hl : lookupA gs k with
      | none =>
        exfalso
        have h := hobs [k]
        rw [observeV_cons_none [] hl, observeV_cons_some [] hv'] at h
        cases v' <;> simp at h
      | some v => exact ⟨v, rfl⟩
  have hkperm : (gs.map Prod.fst).Perm (gs'.map Prod.fst) :=
    (List.perm_ext_iff_of_nodup hnd hnd').mpr hmemiff
  have hval : ∀ k v v', lookupA gs k = some v → lookupA gs' k = some v' →
      ∀ q, observeV v q = observeV v' q := by
    intro k v v' hv hv' q
    have h := hobs (k :: q)
    rwa [observeV_cons_some q hv, observeV_cons_some q hv'] at h
  have hmapG : gs.map okDelta = (gs.map Prod.fst).map
      (fun k => okDelta (k, (lookupA gs k).getD (.str []))) := by
    rw [List.map_map]
    apply List.map_congr_left
    intro e he
    obtain ⟨k, v⟩ := e
    have hl := lookupA_of_mem_nodup hnd he
    show okDelta (k, v) = okDelta (k, (lookupA gs k).getD (.str []))
    rw [hl, Option.getD_some]
  have hmapG' : gs'.map okDelta = (gs'.map Prod.fst).map
      (fun k => okDelta (k, (lookupA gs' k).getD (.str []))) := by
    rw [List.map_map]
    apply List.map_congr_left
    intro e he
    obtain ⟨k, v⟩ := e
    have hl := lookupA_of_mem_nodup hnd' he
    show okDelta (k, v) = okDelta (k, (lookupA gs' k).getD (.str []))
    rw [hl, Option.getD_some]
  have hFcongr : ∀ k ∈ gs'.map Prod.fst,
      okDelta (k, (lookupA gs' k).getD (.str []))
        = okDelta (k, (lookupA gs k).getD (.str [])) := by
    intro k hk
    obtain ⟨v', hv'⟩ := mem_fst_iff_lookupA.mp hk
    obtain ⟨v, hv⟩ := mem_fst_iff_lookupA.mp ((hmemiff k).mpr hk)
    rw [hv, hv', Option.getD_some, Option.getD_some]
    unfold okDelta
    rw [stepGame_congr (k, v') (k, v)
      (fun q => (hval k v v' hv hv' q).symm) zeroW]
  have hdeltasperm : (gs'.map okDelta).Perm (gs.map okDelta) := by
    rw [hmapG, hmapG']
    rw [List.map_congr_left hFcongr]
    exact (hkperm.symm).map _
  have hallok := walkGames_ok_all gs zeroW s hwalk
  have hallok' : ∀ e ∈ gs', ∃ δ, stepGame zeroW e = .ok δ := by
    intro e he
    obtain ⟨k, v'⟩ := e
    have hv' : lookupA gs' k = some v' := lookupA_of_mem_nodup hnd' he
    have hk' : k ∈ gs'.map Prod.fst := List.mem_map_of_mem Prod.fst he
    obtain ⟨v, hv⟩ := mem_fst_iff_lookupA.mp ((hmemiff k).mpr hk')
    obtain ⟨δ, hδ⟩ := hallok (k, v) (lookupA_mem hv)
    refine ⟨δ, ?_⟩
    rw [stepGame_congr (k, v') (k, v)
      (fun q => (hval k v v' hv hv' q).symm) zeroW]
    exact hδ
  have h1 := walkGames_eq_fold gs zeroW hallok
  have h2 := walkGames_eq_fold gs' zeroW hallok'
  rw [hwalk] at h1
  have hs : s = gs.foldl (fun acc e => addW acc (okDelta e)) zeroW := by
    injection h1
  rw [h2, hs]
  have hfold : ∀ (l : List (Key × Value)) (st : WalkState),
      l.foldl (fun acc e => addW acc (okDelta e)) st
        = (l.map okDelta).foldl addW st := by
    intro l st
    rw [List.foldl_map]
  rw [hfold, hfold, foldl_addW_perm hdeltasperm]

/-- The walk on the whole record depends only on the record's
observations. -/
theorem walkRecord_congr {d d' : Value} (hwf : WFV d) (hwf' : WFV d')
    (hobs : ∀ q, observeV d q = observeV d' q) :
    ∀ s, walkRecord d = .ok s → walkRecord d' = .ok s := by
  intro s h
  unfold walkRecord at h ⊢
  rcases getKey_congr hobs gameK with ⟨e, h1, h2⟩ | ⟨g, g', h1, h2, hg⟩
  · rw [h1] at h
    exact absurd h (by simp)
  · rw [h1, ok_bind] at h
    rw [h2, ok_bind]
    cases g with
    | str s1 => exact absurd h (by simp)
    | map gs =>
      cases g' with
      | str s2 => exact absurd (hg []) (by simp)
      | map gs' =>
        exact walk_entries_congr gs gs'
          (WFV_map_nodup (getKey_ok_wf hwf h1))
          (WFV_map_nodup (getKey_ok_wf hwf' h2)) hg s h

/-- When every line parses, the input loop is the pure build over the
parsed (path, value) pairs. -/
theorem parseFrom_eq_buildFrom : ∀ (lines : List (List Char)) (d : Value),
    (∀ line ∈ lines, ∃ pv, parseLine line = .ok pv) →
    parseFrom d lines = buildFrom d (lines.map parsedPair) := by
  intro lines
  induction lines with
  | nil => intro d _; rfl
  | cons line rest ih =>
    intro d h
    obtain ⟨pv, hpv⟩ := h line (List.mem_cons_self _ _)
    rw [List.map_cons, parseFrom, buildFrom]
    have hpl : processLine d line
        = add_value d (parsedPair line).1 (parsedPair line).2 := by
      unfold processLine parsedPair
      rw [hpv, ok_bind]
    rw [hpl]
    cases ha : add_value d (parsedPair line).1 (parsedPair line).2 with
    | error e => rfl
    | ok d' => exact ih d' (fun l2 h2 => h l2 (List.mem_cons_of_mem _ h2))

/-! ### The claims -/

/-- C9 (confirmed): every line accepted by the parser yields at least one
key segment when split on ".", so the defensive `InternalError`
(`NotImplementedError`) branch of the tree builder is unreachable: the
input loop can never raise it. -/
theorem claim9_internal_error_unreachable :
    (∀ (line : List Char) (p : Path) (v : Key),
      parseLine line = .ok (p, v) → p ≠ []) ∧
    (∀ (k : List Char), splitDot k ≠ []) ∧
    (∀ (lines : List (List Char)), parseLines lines ≠ .error .internalError) :=
  ⟨fun _ _ _ h => parseLine_path_ne_nil h, splitDot_ne_nil,
   fun lines => parseFrom_ne_internal lines _⟩

theorem claim9_witness :
    (["a".toList, "b".toList] : Path) ≠ [] :=
  claim9_internal_error_unreachable.1 ("a.b = 1".toList) _ _ rfl

/-- C10 (confirmed): when an input line has assigned a string at a path
`p`, a later line assigning at a strictly longer path through that leaf
aborts the run with an error (the leaf is never replaced by a nested
mapping); concretely, a.b = 1 followed by a.b.c = 2 aborts with a
TypeError. -/
theorem claim10_descend_through_leaf_fails :
    (∀ (d : Value) (p : Path) (s : Key) (ext : Path) (v : Key),
      observeV d p = some (some s) → ext ≠ [] →
      ∀ d₂, add_value d (p ++ ext) v ≠ .ok d₂) ∧
    parseLines ["a.b = 1".toList, "a.b.c = 2".toList] = .error .typeError :=
  ⟨fun d p s ext v h1 h2 => add_value_blocked p d s h1 ext v h2, rfl⟩

theorem claim10_witness :
    ∀ d₂,
      add_value (.map [("a".toList, .map [("b".toList, .str "1".toList)])])
        (["a".toList, "b".toList] ++ ["c".toList]) ("2".toList) ≠ .ok d₂ :=
  claim10_descend_through_leaf_fails.1 _ _ ("1".toList) _ _ rfl (by simp)

/-- C2 (confirmed): assignment at the final key segment overwrites any
prior value or sub-mapping at that path without warning; in particular
parsing the two lines a.b = 1 then a.b = 2 leaves the string "2" at path
a.b. -/
theorem claim2_last_value_wins :
    (∀ (d : Value) (p : Path) (v : Key), p ≠ [] →
      (∀ r, isSPre r p = true → isLeafO (observeV d r) = false) →
      ∃ d₂, add_value d p v = .ok d₂ ∧ observeV d₂ p = some (some v)) ∧
    (parseLines ["a.b = 1".toList, "a.b = 2".toList] =
        .ok (.map [("a".toList, .map [("b".toList, .str "2".toList)])]) ∧
      observeV (.map [("a".toList, .map [("b".toList, .str "2".toList)])])
        ["a".toList, "b".toList] = some (some ("2".toList))) := by
  constructor
  · intro d p v hp hpre
    obtain ⟨d₂, hadd, hchar⟩ := add_value_char p d v hp hpre
    refine ⟨d₂, hadd, ?_⟩
    rw [hchar p, if_pos rfl]
  · exact ⟨rfl, rfl⟩

theorem claim2_witness :
    ∃ d₂,
      add_value (.map [("a".toList, .str "x".toList)]) ["a".toList] ("2".toList)
          = .ok d₂ ∧
        observeV d₂ ["a".toList] = some (some ("2".toList)) :=
  claim2_last_value_wins.1 _ _ _ (by simp) (by
    intro r hr
    cases r with
    | nil => rfl
    | cons a t =>
      exfalso
      rw [isSPre_cons_cons] at hr
      by_cases ha : a = "a".toList
      · rw [if_pos ha] at hr
        simp at hr
      · rw [if_neg ha] at hr
        simp at hr)

/-- C4 (confirmed): after any successful run of the game walker from the
zero state, player1.wins = player2.losses, player2.wins = player1.losses,
and both players' draws counters equal the number of games whose winner
field is the string "draw". -/
theorem claim4_outcome_invariant (entries : List (Key × Value)) (s : WalkState)
    (h : walkGames zeroW entries = .ok s) :
    s.player1.wins = s.player2.losses ∧
    s.player2.wins = s.player1.losses ∧
    s.player1.draws = countWinner entries drawK ∧
    s.player2.draws = countWinner entries drawK := by
  obtain ⟨ht, hw1, hd1, hl1, hw2, hd2, hl2⟩ :=
    walkGames_ok_outcomes entries zeroW s h
  simp [zeroW, zeroP] at hw1 hd1 hl1 hw2 hd2 hl2
  exact ⟨by rw [hw1, hl2], by rw [hw2, hl1], hd1, hd2⟩

theorem claim4_witness :
    walkGames zeroW [("0".toList, sampleGame ("draw".toList))]
        = .ok sampleDrawState ∧
      (sampleDrawState.player1.wins = sampleDrawState.player2.losses ∧
        sampleDrawState.player2.wins = sampleDrawState.player1.losses ∧
        sampleDrawState.player1.draws =
          countWinner [("0".toList, sampleGame ("draw".toList))] drawK ∧
        sampleDrawState.player2.draws =
          countWinner [("0".toList, sampleGame ("draw".toList))] drawK) :=
  ⟨rfl, claim4_outcome_invariant _ _ rfl⟩

/-- C5 (corrected): the original claim fails — a game with the
unrecognised winner "foo" is counted in total_games but increments no
outcome counter, so wins + draws + losses falls short of the games
processed. -/
theorem claim5_cex :
    walkGames zeroW [("0".toList, sampleGame ("foo".toList))] = .ok fooState ∧
    fooState.player1.wins + fooState.player1.draws + fooState.player1.losses
      ≠ fooState.total_games :=
  ⟨rfl, by decide⟩

/-- C5 (amended): after any successful walk from the zero state, each
player's wins + draws + losses equals the number of games processed whose
winner field is one of the three recognised literals. -/
theorem claim5_accounting (entries : List (Key × Value)) (s : WalkState)
    (h : walkGames zeroW entries = .ok s) :
    s.player1.wins + s.player1.draws + s.player1.losses = countKnown entries ∧
    s.player2.wins + s.player2.draws + s.player2.losses = countKnown entries := by
  obtain ⟨ht, hw1, hd1, hl1, hw2, hd2, hl2⟩ :=
    walkGames_ok_outcomes entries zeroW s h
  simp [zeroW, zeroP] at hw1 hd1 hl1 hw2 hd2 hl2
  have hsplit := counts_split entries
  constructor
  · rw [hw1, hd1, hl1]; linarith
  · rw [hw2, hd2, hl2]; linarith

theorem claim5_witness :
    sampleDrawState.player1.wins + sampleDrawState.player1.draws +
        sampleDrawState.player1.losses =
      countKnown [("0".toList, sampleGame ("draw".toList))] ∧
    sampleDrawState.player2.wins + sampleDrawState.player2.draws +
        sampleDrawState.player2.losses =
      countKnown [("0".toList, sampleGame ("draw".toList))] :=
  claim5_accounting _ _ rfl

/-- C1 (corrected): the original claim fails — the walker does not raise
on a winner value outside the three literals: the step on a game with
winner "foo" succeeds, the game is counted and its counters accumulated,
and no outcome counter is touched. -/
theorem claim1_cex :
    stepGame zeroW ("0".toList, sampleGame ("foo".toList)) = .ok fooState ∧
    fooState.total_games = 1 ∧ fooState.player1.wins = 0 ∧
    fooState.player1.draws = 0 ∧ fooState.player1.losses = 0 ∧
    fooState.player1.moves = 10 :=
  ⟨rfl, rfl, rfl, rfl, rfl, rfl⟩

/-- C1 (amended): a game whose winner field is not one of the three
literals is silently skipped for outcome classification (no
`UnknownWinnerError` exists): when the step succeeds, the game is still
counted in total_games and no wins/draws/losses counter changes for
either player. -/
theorem claim1_unknown_winner_skipped (st : WalkState) (e : Key × Value)
    (s : WalkState) (hunk : winnerKnown e = false)
    (h : stepGame st e = .ok s) :
    s.total_games = st.total_games + 1 ∧
    s.player1.wins = st.player1.wins ∧ s.player1.draws = st.player1.draws ∧
    s.player1.losses = st.player1.losses ∧
    s.player2.wins = st.player2.wins ∧ s.player2.draws = st.player2.draws ∧
    s.player2.losses = st.player2.losses := by
  obtain ⟨ht, hw1, hd1, hl1, hw2, hd2, hl2⟩ := stepGame_ok_outcomes h
  have hdiv := by unfold winnerKnown at hunk; exact hunk
  obtain ⟨⟨hd, hp1⟩, hp2⟩ : (winnerOf e drawK = false ∧ winnerOf e p1K = false) ∧
      winnerOf e p2K = false := by simpa using hdiv
  refine ⟨?_, ?_, ?_, ?_, ?_, ?_, ?_⟩ <;>
    simp [ht, hw1, hd1, hl1, hw2, hd2, hl2, hd, hp1, hp2]

theorem claim1_witness :
    winnerKnown ("0".toList, sampleGame ("foo".toList)) = false ∧
    (fooState.total_games = zeroW.total_games + 1 ∧
      fooState.player1.wins = zeroW.player1.wins ∧
      fooState.player1.draws = zeroW.player1.draws ∧
      fooState.player1.losses = zeroW.player1.losses ∧
      fooState.player2.wins = zeroW.player2.wins ∧
      fooState.player2.draws = zeroW.player2.draws ∧
      fooState.player2.losses = zeroW.player2.losses) :=
  ⟨rfl, claim1_unknown_winner_skipped zeroW
    ("0".toList, sampleGame ("foo".toList)) fooState rfl rfl⟩

/-- C3 (confirmed): for every accumulator and total_games N > 0 the
averager succeeds and replaces each of the six sum fields by exactly
sum / N (exact division in ℚ, modelling Python float division, with no
rounding or clamping), while wins, draws and losses stay the same
integers. -/
theorem claim3_average_law (s : PStats) (N : Int) (hN : 0 < N) :
    average_player_stats s N = .ok
      { wins := s.wins, draws := s.draws, losses := s.losses,
        moves := (s.moves : ℚ) / (N : ℚ),
        explored := (s.explored : ℚ) / (N : ℚ),
        beta_cuts := (s.beta_cuts : ℚ) / (N : ℚ),
        tt_exact := (s.tt_exact : ℚ) / (N : ℚ),
        tt_cuts := (s.tt_cuts : ℚ) / (N : ℚ),
        max_depth := (s.max_depth : ℚ) / (N : ℚ) } := by
  unfold average_player_stats
  rw [if_neg (by omega)]

theorem claim3_witness :
    average_player_stats ⟨1, 1, 0, 18, 180, 6, 3, 1, 9⟩ 2 = .ok
      { wins := 1, draws := 1, losses := 0,
        moves := (((18 : Int) : ℚ)) / (((2 : Int) : ℚ)),
        explored := (((180 : Int) : ℚ)) / (((2 : Int) : ℚ)),
        beta_cuts := (((6 : Int) : ℚ)) / (((2 : Int) : ℚ)),
        tt_exact := (((3 : Int) : ℚ)) / (((2 : Int) : ℚ)),
        tt_cuts := (((1 : Int) : ℚ)) / (((2 : Int) : ℚ)),
        max_depth := (((9 : Int) : ℚ)) / (((2 : Int) : ℚ)) } ∧
    (((18 : Int) : ℚ)) / (((2 : Int) : ℚ)) = 9 :=
  ⟨claim3_average_law ⟨1, 1, 0, 18, 180, 6, 3, 1, 9⟩ 2 (by decide), by norm_num⟩

/-- C6 (corrected): the original claim fails — on the line "a = b = c"
the raw remainder after the first " = " is "b = c", which contains a
further " = ", and the parser fails with the unpack ValueError instead of
storing it verbatim. -/
theorem claim6_cex :
    pyStrip ("a = b = c".toList) = "a".toList ++ (sepL ++ "b = c".toList) ∧
    parseLine ("a = b = c".toList) = .error .valueError :=
  ⟨rfl, rfl⟩

/-- C6 (amended): for a line whose stripped form has its first " = "
right after the key part and whose remainder contains no further " = ",
the parser accepts it and the value is that raw remainder, verbatim
(dots and all); a remainder containing " = " instead makes the line
parse fail. -/
theorem claim6_value_verbatim (line k v : List Char)
    (hs : pyStrip line = k ++ (sepL ++ v))
    (hk : noSepWithin k.length (k ++ (sepL ++ v)) = true)
    (hv : hasSep v = false) :
    parseLine line = .ok (splitDot k, v) := by
  unfold parseLine
  rw [hs, ← List.append_assoc]
  rw [← List.append_assoc] at hk
  rw [splitEq_first k v hk, splitEq_no v hv]

theorem claim6_witness :
    parseLine ("key = x.y".toList) = .ok (splitDot ("key".toList), "x.y".toList) :=
  claim6_value_verbatim _ ("key".toList) ("x.y".toList) rfl rfl rfl

/-- C7 (corrected): the original claim fails — on the input consisting of
the single line config.games = 0 the run aborts with the KeyError raised
by data["game"], not with the zero-division NoGamesError; no division
result or report is produced. -/
theorem claim7_cex :
    run ["config.games = 0".toList] = .error .keyError ∧
    Err.keyError ≠ Err.zeroDivision :=
  ⟨rfl, by decide⟩

/-- C7 (amended): whenever the input parses to a record with no "game"
key, the run fails with the KeyError raised by data["game"], before any
averaging or report. -/
theorem claim7_no_games (lines : List (List Char)) (d : Value)
    (hp : parseLines lines = .ok d) (hg : observeV d [gameK] = none) :
    run lines = .error .keyError := by
  obtain ⟨m, rfl⟩ := parseFrom_root lines [] d hp
  have hlk : lookupA m gameK = none := by
    cases hl : lookupA m gameK with
    | none => rfl
    | some w =>
      rw [observeV_cons_some [] hl] at hg
      cases w <;> simp at hg
  unfold run
  rw [hp, ok_bind]
  unfold walkRecord
  rw [getKey_map, hlk]
  rfl

theorem claim7_witness :
    run ["config.games = 0".toList] = .error .keyError :=
  claim7_no_games _
    (.map [("config".toList, .map [("games".toList, .str "0".toList)])]) rfl rfl

/-- C8 (corrected): the original claim fails — the input lines
a.b = 2 then a = 1 have no duplicate key path at all, so any permutation
satisfies the "last occurrence unchanged" condition, yet one order parses
to the record a ↦ "1" while the swapped order aborts with a TypeError:
with prefix-conflicting paths the parsed record is not permutation
invariant. -/
theorem claim8_cex :
    parseLines ["a.b = 2".toList, "a = 1".toList]
        = .ok (.map [("a".toList, .str "1".toList)]) ∧
    parseLines ["a = 1".toList, "a.b = 2".toList] = .error .typeError ∧
    List.Perm ["a.b = 2".toList, "a = 1".toList]
      ["a = 1".toList, "a.b = 2".toList] ∧
    (∀ p, lastVal (["a.b = 2".toList, "a = 1".toList].map parsedPair) p
        = lastVal (["a = 1".toList, "a.b = 2".toList].map parsedPair) p) := by
  refine ⟨rfl, rfl, List.Perm.swap _ _ _, ?_⟩
  intro p
  have hps : (["a.b = 2".toList, "a = 1".toList].map parsedPair)
      = [(["a".toList, "b".toList], "2".toList), (["a".toList], "1".toList)] := rfl
  have hps' : (["a = 1".toList, "a.b = 2".toList].map parsedPair)
      = [(["a".toList], "1".toList), (["a".toList, "b".toList], "2".toList)] := rfl
  rw [hps, hps']
  by_cases h1 : ([['a'], ['b']] : Path) = p
  · rw [← h1]
    decide
  · by_cases h2 : ([['a']] : Path) = p
    · rw [← h2]
      decide
    · simp [lastVal, h1, h2]

/-- C8 (amended): for input lines that all parse and whose key paths are
pairwise prefix-free, any permutation of the lines that keeps the last
assignment of every key path unchanged parses to an identical record as a
mapping (equal observations at every path), and consequently any
successful walker result (per-player sums and total_games, hence the
averages computed from them) is unchanged. -/
theorem claim8_order_independence (l l' : List (List Char))
    (hperm : l.Perm l')
    (hok : ∀ line ∈ l, ∃ pv, parseLine line = .ok pv)
    (hnp : ∀ p q, p ∈ pathsOf (l.map parsedPair) →
      q ∈ pathsOf (l.map parsedPair) → isSPre p q = false)
    (hlast : ∀ p, lastVal (l.map parsedPair) p
      = lastVal (l'.map parsedPair) p) :
    ∃ d d', parseLines l = .ok d ∧ parseLines l' = .ok d' ∧
      (∀ q, observeV d q = observeV d' q) ∧
      (∀ s, walkRecord d = .ok s → walkRecord d' = .ok s) := by
  have hok' : ∀ line ∈ l', ∃ pv, parseLine line = .ok pv :=
    fun line hline => hok line (hperm.mem_iff.mpr hline)
  have hpairs : (l.map parsedPair).Perm (l'.map parsedPair) :=
    hperm.map parsedPair
  have hpathsperm : (pathsOf (l.map parsedPair)).Perm
      (pathsOf (l'.map parsedPair)) := hpairs.map Prod.fst
  have hnp' : ∀ p q, p ∈ pathsOf (l'.map parsedPair) →
      q ∈ pathsOf (l'.map parsedPair) → isSPre p q = false := by
    intro p q hp hq
    exact hnp p q (hpathsperm.mem_iff.mpr hp) (hpathsperm.mem_iff.mpr hq)
  have hne : ∀ p ∈ pathsOf (l.map parsedPair), p ≠ [] := by
    intro p hp
    rw [pathsOf, List.map_map] at hp
    obtain ⟨line, hline, hpe⟩ := List.mem_map.mp hp
    obtain ⟨pv, hpv⟩ := hok line hline
    have hpp : parsedPair line = pv := by
      unfold parsedPair
      rw [hpv]
    have h2 : (Prod.fst ∘ parsedPair) line = pv.1 := by
      show (parsedPair line).1 = pv.1
      rw [hpp]
    rw [← hpe, h2]
    obtain ⟨pp, vv⟩ := pv
    exact parseLine_path_ne_nil hpv
  have hne' : ∀ p ∈ pathsOf (l'.map parsedPair), p ≠ [] := by
    intro p hp
    exact hne p (hpathsperm.mem_iff.mpr hp)
  obtain ⟨d, hb, hwf, hchar⟩ := build_char (l.map parsedPair) hnp hne
  obtain ⟨d', hb', hwf', hchar'⟩ := build_char (l'.map parsedPair) hnp' hne'
  have hobs : ∀ q, observeV d q = observeV d' q := by
    intro q
    rw [hchar q, hchar' q, charObs_eq, charObs_eq]
    by_cases hq0 : q = []
    · rw [if_pos hq0, if_pos hq0]
    · rw [if_neg hq0, if_neg hq0, hlast q]
      cases lastVal (l'.map parsedPair) q with
      | some v => rfl
      | none => rw [perm_any hpairs]
  refine ⟨d, d', ?_, ?_, hobs, fun s hs => walkRecord_congr hwf hwf' hobs s hs⟩
  · show parseFrom (.map []) l = .ok d
    rw [parseFrom_eq_buildFrom l (.map []) hok]
    exact hb
  · show parseFrom (.map []) l' = .ok d'
    rw [parseFrom_eq_buildFrom l' (.map []) hok']
    exact hb'

theorem claim8_witness :
    ∃ d d',
      parseLines ["a.b = 1".toList, "c = 2".toList, "a.b = 3".toList]
          = .ok d ∧
        parseLines ["c = 2".toList, "a.b = 1".toList, "a.b = 3".toList]
          = .ok d' ∧
        (∀ q, observeV d q = observeV d' q) ∧
        (∀ s, walkRecord d = .ok s → walkRecord d' = .ok s) :=
  claim8_order_independence _ _
    (List.Perm.swap ("c = 2".toList) ("a.b = 1".toList) ["a.b = 3".toList])
    (by
      intro line h
      simp only [List.mem_cons, List.not_mem_nil, or_false] at h
      rcases h with rfl | rfl | rfl
      · exact ⟨(["a".toList, "b".toList], "1".toList), rfl⟩
      · exact ⟨(["c".toList], "2".toList), rfl⟩
      · exact ⟨(["a".toList, "b".toList], "3".toList), rfl⟩)
    (by
      intro p q hp hq
      have hpaths : pathsOf
          ((["a.b = 1".toList, "c = 2".toList, "a.b = 3".toList]).map parsedPair)
          = [["a".toList, "b".toList], ["c".toList], ["a".toList, "b".toList]] := rfl
      rw [hpaths] at hp hq
      simp only [List.mem_cons, List.not_mem_nil, or_false] at hp hq
      rcases hp with rfl | rfl | rfl <;> rcases hq with h | h | h <;>
        rw [h] <;> decide)
    (by
      intro p
      have hps : ((["a.b = 1".toList, "c = 2".toList, "a.b = 3".toList]).map parsedPair)
          = [(["a".toList, "b".toList], "1".toList), (["c".toList], "2".toList),
             (["a".toList, "b".toList], "3".toList)] := rfl
      have hps' : ((["c = 2".toList, "a.b = 1".toList, "a.b = 3".toList]).map parsedPair)
          = [(["c".toList], "2".toList), (["a".toList, "b".toList], "1".toList),
             (["a".toList, "b".toList], "3".toList)] := rfl
      rw [hps, hps']
      by_cases h1 : ([['a'], ['b']] : Path) = p
      · rw [← h1]
        decide
      · by_cases h2 : ([['c']] : Path) = p
        · rw [← h2]
          decide
        · simp [lastVal, h1, h2])

end Checkers
